import Mathlib

/-!
A shallow embedding of the text-processing pipeline implemented by the
`AudioProcessor` class in `main.py` (multilingual audio transcription and
summarization), together with proofs about its sentence segmentation,
key-phrase extraction, chunking, Urdu normalization, summarization fallback
policy, and pipeline orchestration.

External capabilities (the Whisper transcription model, the `transformers`
summarization pipeline, and file writes) are modelled as `Except`-valued
oracles passed in explicitly; all text manipulation is embedded directly,
working on `List Char` (Python strings are sequences of code points, as is
`String.data`).
-/

namespace AudioProcessor

/-- The characters Python's `str.split()`, `str.strip()` and the regex class
`\s` treat as whitespace (the Unicode whitespace list). -/
def isPyWs (c : Char) : Bool :=
  c = ' ' ∨ c = '\t' ∨ c = '\n' ∨ c = '\x0d' ∨ c = '\x0b' ∨ c = '\x0c' ∨
  c = '\x1c' ∨ c = '\x1d' ∨ c = '\x1e' ∨ c = '\x1f' ∨ c = '\x85' ∨ c = '\xa0' ∨
  c = ' ' ∨ (0x2000 ≤ c.toNat ∧ c.toNat ≤ 0x200a) ∨ c = ' ' ∨
  c = ' ' ∨ c = ' ' ∨ c = ' ' ∨ c = '　'

/-- One step of `runsOf`: place `c` relative to the runs already formed for
the tail `cs`. -/
def runsStep (p : Char → Bool) (c : Char) (cs : List Char)
    (rest : List (List Char)) : List (List Char) :=
  if p c then
    match cs, rest with
    | [], _ => [[c]]
    | d :: _, r :: rs => if p d then (c :: r) :: rs else [c] :: r :: rs
    | _ :: _, [] => [[c]]
  else rest

/-- Maximal runs of consecutive characters satisfying `p`; characters not
satisfying `p` separate the runs and are discarded.  This is the shared core
of Python's `str.split()` (no argument) and of the run-shaped `re.findall`
tokenizers used for key phrases. -/
def runsOf (p : Char → Bool) : List Char → List (List Char)
  | [] => []
  | c :: cs => runsStep p c cs (runsOf p cs)

/-- Python `text.split()` (split on whitespace runs, no empty pieces). -/
def pySplit (l : List Char) : List (List Char) :=
  runsOf (fun c => !isPyWs c) l

/-- Python `sep.join(pieces)` at the character-list level. -/
def pyJoin (sep : List Char) : List (List Char) → List Char
  | [] => []
  | [w] => w
  | w :: v :: ws => w ++ sep ++ pyJoin sep (v :: ws)

/-- Python `sep.join(pieces)` on strings. -/
def pyJoinStr (sep : String) (l : List String) : String :=
  String.mk (pyJoin sep.data (l.map String.data))

/-- Python `text.strip()`. -/
def stripWs (l : List Char) : List Char :=
  ((l.dropWhile isPyWs).reverse.dropWhile isPyWs).reverse

/-- Python `re.sub(r'\s+', ' ', ·)`: replace every maximal whitespace run by a
single space.  The flag records whether the previous character was part of a
whitespace run already rewritten (the single space is emitted at the start
of each run). -/
def subWsRuns : Bool → List Char → List Char
  | _, [] => []
  | true, c :: cs =>
    if isPyWs c then subWsRuns true cs else c :: subWsRuns false cs
  | false, c :: cs =>
    if isPyWs c then ' ' :: subWsRuns true cs else c :: subWsRuns false cs

/-- `re.sub(r'\s+', ' ', text.strip())`, the whitespace-collapsing step shared
by `normalize_urdu` and `_clean_text`. -/
def collapseWs (l : List Char) : List Char :=
  subWsRuns false (stripWs l)

/-- Python `re.split` on a single-character class (also `str.split(sep)` for a
one-character separator): cut at every character satisfying `isTerm`,
keeping the possibly empty pieces between cuts. -/
def splitOnTerms (isTerm : Char → Bool) : List Char → List (List Char)
  | [] => [[]]
  | c :: cs =>
    if isTerm c then [] :: splitOnTerms isTerm cs
    else
      match splitOnTerms isTerm cs with
      | [] => [[c]]
      | p :: ps => (c :: p) :: ps

/-- Whether `pre` is an initial segment of `l` (used by `pyFind`). -/
def startsWith : List Char → List Char → Bool
  | [], _ => true
  | _ :: _, [] => false
  | a :: as, b :: bs => a = b && startsWith as bs

/-- Python `haystack.find(needle)`: index of the first occurrence of `needle`
in `haystack`, or `-1` when there is none. -/
def pyFind (needle : List Char) : List Char → Int
  | [] => if startsWith needle [] then 0 else -1
  | c :: rest =>
    if startsWith needle (c :: rest) then 0
    else if pyFind needle rest < 0 then -1 else pyFind needle rest + 1

/-! ### A model of `unicodedata.normalize("NFKC", ·)`

`normalize_urdu` calls the external `unicodedata` library.  The model below
implements NFKC — compatibility decomposition followed by canonical
composition — restricted to the character repertoire this development
reasons about: the Arabic block, its presentation forms of the two folded
letters, and the combining madda/hamza marks.  Characters outside the tables
are inert, and the canonical-reordering step is omitted (it is the identity
on text without stacked combining marks). -/

/-- Compatibility decomposition: the presentation forms of Keheh
(U+FB8E–U+FB91 → U+06A9) and of Farsi Yeh (U+FBFC–U+FBFF → U+06CC);
all other characters decompose to themselves. -/
def nfkcDecomp (c : Char) : List Char :=
  if 0xFB8E ≤ c.toNat ∧ c.toNat ≤ 0xFB91 then ['ک']
  else if 0xFBFC ≤ c.toNat ∧ c.toNat ≤ 0xFBFF then ['ی']
  else [c]

/-- The combining marks that occur as second element of an Arabic canonical
composition: madda above, hamza above, hamza below. -/
def isCompSecond (c : Char) : Bool :=
  c = 'ٓ' ∨ c = 'ٔ' ∨ c = 'ٕ'

/-- The canonical composition pairs of the Arabic block (from UnicodeData):
alef+madda → U+0622, alef/waw/yeh/ae/heh-goal/yeh-barree + hamza above and
alef + hamza below → the corresponding precomposed letters. -/
def composePair (a b : Char) : Option Char :=
  if b = 'ٓ' then (if a = 'ا' then some 'آ' else none)
  else if b = 'ٔ' then
    (if a = 'ا' then some 'أ'
     else if a = 'و' then some 'ؤ'
     else if a = 'ي' then some 'ئ'
     else if a = 'ە' then some 'ۀ'
     else if a = 'ہ' then some 'ۂ'
     else if a = 'ے' then some 'ۓ'
     else none)
  else if b = 'ٕ' then (if a = 'ا' then some 'إ' else none)
  else none

/-- The canonical composition pass with explicit fuel (each step consumes one
unit, so the length of the list is enough fuel). -/
def composeFuel : Nat → List Char → List Char
  | _, [] => []
  | _, [c] => [c]
  | 0, l => l
  | fuel + 1, a :: b :: t =>
    match composePair a b with
    | some c => composeFuel fuel (c :: t)
    | none => a :: composeFuel fuel (b :: t)

/-- The canonical composition pass: left to right, repeatedly compose an
adjacent pair. -/
def composeList (l : List Char) : List Char :=
  composeFuel l.length l

/-- `unicodedata.normalize("NFKC", ·)` under the model above. -/
def nfkc (l : List Char) : List Char :=
  composeList (l.map nfkcDecomp).flatten

/-- `AudioProcessor.normalize_urdu`: NFKC composition, folding of Keheh
(U+06A9) to Kaf (U+0643) and of Farsi Yeh (U+06CC) to Yeh (U+064A), then
whitespace collapsing (`re.sub(r'\s+', ' ', text.strip())`). -/
def normalize_urdu (text : String) : String :=
  let t1 := nfkc text.data
  let t2 := t1.map (fun c => if c = 'ک' then 'ك' else c)
  let t3 := t2.map (fun c => if c = 'ی' then 'ي' else c)
  String.mk (collapseWs t3)

/-! ### Chunking -/

/-- Consecutive groups of `m` elements, with explicit fuel (the length of the
list is enough fuel). -/
def chunksOfFuel {α : Type} (m : Nat) : Nat → List α → List (List α)
  | _, [] => []
  | 0, ws => [ws]
  | fuel + 1, w :: ws => (w :: ws.take (m - 1)) :: chunksOfFuel m fuel (ws.drop (m - 1))

/-- The slices `words[i:i+max_words]` for `i = 0, max_words, ...`: consecutive
groups of `m` elements (the last group possibly shorter). -/
def chunksOf {α : Type} (m : Nat) (ws : List α) : List (List α) :=
  chunksOfFuel m ws.length ws

/-- `AudioProcessor.chunk_text`: whitespace-split the text, group the words
into runs of `max_words` (defaulting to 300 for Urdu and 500 otherwise),
rejoin each group with single spaces and keep the chunks that are non-blank
(the generator, materialised as a list). -/
def chunk_text (text : String) (language : String) (max_words : Option Nat) :
    List String :=
  let m := max_words.getD (if language = "ur" then 300 else 500)
  let words := pySplit text.data
  (((chunksOf m words).map (pyJoin [' '])).filter
      (fun c => c.any (fun ch => !isPyWs ch))).map String.mk

/-! ### Sentence segmentation -/

/-- `AudioProcessor._regex_sentence_split`: split on the language's terminal
punctuation class (`sentence_patterns.get(language, en)`), strip each piece
and keep those with at least 3 whitespace-delimited words, then reattach to
every retained sentence but the last the terminator found after the
sentence's first occurrence in the source text (`text.find`), defaulting to
the language's full stop; the last retained sentence gets no terminator. -/
def _regex_sentence_split (text language : String) : List String :=
  let pattern : Char → Bool :=
    if language = "ur" then fun c => c = '۔' ∨ c = '؟' ∨ c = '!'
    else fun c => c = '.' ∨ c = '!' ∨ c = '?'
  let sentences := splitOnTerms pattern text.data
  let processed := (sentences.map stripWs).filter
    (fun s => !s.isEmpty && decide (3 ≤ (pySplit s).length))
  let ending_char : Char := if language = "ur" then '۔' else '.'
  let ends : Char → Bool :=
    if language = "ur" then fun c => c = '۔' ∨ c = '؟' ∨ c = '!'
    else fun c => c = '.' ∨ c = '!' ∨ c = '?'
  let reattached := processed.dropLast.map (fun s =>
    let next_pos : Int := pyFind s text.data + s.length
    if next_pos < (text.data.length : Int) then
      let c := text.data.getD next_pos.toNat ' '
      if ends c then s ++ [c] else s ++ [ending_char]
    else s ++ [ending_char])
  let final := match processed.getLast? with
    | some s => reattached ++ [s]
    | none => reattached
  final.map String.mk

/-! ### Key phrase extraction -/

def isArabicChar (c : Char) : Bool :=
  0x0600 ≤ c.toNat && c.toNat ≤ 0x06FF

/-- `re.findall(r'[؀-ۿ]{2,}', text)`: the maximal Arabic-block runs
of length at least 2. -/
def tokenize_ur (l : List Char) : List String :=
  ((runsOf isArabicChar l).filter (fun r => decide (2 ≤ r.length))).map String.mk

/-- A word character for the purposes of the regex boundary `\b` (`\w`),
over the repertoire used here: ASCII alphanumerics, underscore, and the
Arabic block. -/
def isWordChar (c : Char) : Bool :=
  c.isAlphanum || c = '_' || isArabicChar c

/-- `re.findall(r'\b[a-zA-Z]{2,}\b', text.lower())`: maximal word-character
runs of the lowercased text that consist solely of letters and have length
at least 2 (a run containing a digit or underscore has no interior word
boundary, so it contributes no match). -/
def tokenize_en (l : List Char) : List String :=
  let lowered := l.map Char.toLower
  ((runsOf isWordChar lowered).filter
      (fun r => decide (2 ≤ r.length) &&
        r.all (fun c => 0x61 ≤ c.toNat && c.toNat ≤ 0x7A))).map String.mk

/-- The `self.stop_words['ur']` set. -/
def urdu_stop_words : List String :=
  ["اور", "کا", "کے", "کی", "میں", "سے", "کو", "نے", "ہے", "ہیں", "تھا", "تھے",
   "یہ", "وہ", "جو", "کہ", "لیے", "ساتھ", "بھی", "تو", "پر", "اس", "ان", "ایک"]

/-- The `self.stop_words['en']` set. -/
def english_stop_words : List String :=
  ["the", "and", "or", "but", "in", "on", "at", "to", "for", "of", "with", "by",
   "a", "an", "is", "are", "was", "were", "be", "been", "have", "has", "had",
   "do", "does", "did", "will", "would", "could", "should", "may", "might",
   "this", "that", "these", "those", "i", "you", "he", "she", "it", "we", "they"]

/-- `self.stop_words.get(language)` — `none` models Python's `None`. -/
def stop_words (language : String) : Option (List String) :=
  if language = "ur" then some urdu_stop_words
  else if language = "en" then some english_stop_words
  else none

/-- One `word_freq[word] = word_freq.get(word, 0) + 1` step on the
insertion-ordered dict, represented as an association list. -/
def bumpCount (acc : List (String × Nat)) (w : String) : List (String × Nat) :=
  if acc.any (fun p => p.1 = w) then
    acc.map (fun p => if p.1 = w then (p.1, p.2 + 1) else p)
  else acc ++ [(w, 1)]

/-- The word-frequency loop of `extract_key_phrases`: count each token that
is not a stop word and has length greater than 2. -/
def word_freq (words : List String) (sw : List String) : List (String × Nat) :=
  words.foldl (fun acc w => if w ∉ sw ∧ 2 < w.length then bumpCount acc w else acc) []

/-- Python's `sorted(·, key=lambda x: x[1], reverse=True)`: a stable sort,
descending on the counts (insertion sort is stable and sorts with respect to
this total preorder, so it computes the same list). -/
def sortByCountDesc (l : List (String × Nat)) : List (String × Nat) :=
  List.insertionSort (fun a b : String × Nat => b.2 ≤ a.2) l

/-- The token stream `words` of `extract_key_phrases` for a language. -/
def kp_words (text language : String) : List String :=
  if language = "ur" then tokenize_ur text.data else tokenize_en text.data

/-- `AudioProcessor.extract_key_phrases`.  For a language with no stop-word
set, Python's `word not in None` raises a `TypeError` on the first token —
modelled as `none` — unless there is no token at all. -/
def extract_key_phrases (text language : String) : Option (List String) :=
  let words := kp_words text language
  match stop_words language with
  | some sw => some (((sortByCountDesc (word_freq words sw)).take 10).map Prod.fst)
  | none => if words.isEmpty then some [] else none

/-! ### Summarization adapter -/

/-- An external summarization capability handle (a loaded `transformers`
pipeline): the model it was built from, whether that model is an mT5 variant
(the `'mt5' in str(summarizer.model.config)` test), and the call itself,
taking the input text with the `max_length`/`min_length` bounds and either
producing a summary string or raising. -/
structure Summarizer where
  model : String
  isMt5 : Bool
  run : String → Nat → Nat → Except String String

/-- `AudioProcessor._load_summarizer`.  `loadModel` stands for
`transformers.pipeline("summarization", model=...)`, which may raise;
`cached` is the `self.summarizer` field, which is consulted before any
language routing.  Returns the summarizer together with the new value of the
cache. -/
def load_summarizer (loadModel : String → Except String Summarizer)
    (cached : Option Summarizer) (language : String) :
    Except String (Summarizer × Option Summarizer) :=
  match cached with
  | some s => .ok (s, some s)
  | none =>
    let model_name := if language = "en" then "facebook/bart-large-cnn"
      else "google/mt5-small"
    match loadModel model_name with
    | .ok s => .ok (s, some s)
    | .error _ =>
      match loadModel "facebook/bart-large-cnn" with
      | .ok s => .ok (s, some s)
      | .error e => .error e

/-- The per-chunk fallback of `summarize_text`: the first two clauses of the
chunk, split on the language's full stop, rejoined and terminated with it. -/
def fallback_summary (chunk : String) (language : String) : String :=
  let sep : Char := if language = "ur" then '۔' else '.'
  let sentences := (splitOnTerms (fun c => c = sep) chunk.data).take 3
  String.mk (pyJoin [sep] (sentences.take 2) ++ [sep])

/-- The per-chunk loop of `summarize_text`: each chunk is summarized through
the capability (with the mT5 task marker when applicable); a failing chunk
contributes the marked fallback instead of propagating the failure. -/
def summarize_chunks (s : Summarizer) (language : String) (maxLen minLen : Nat) :
    List String → List String
  | [] => []
  | chunk :: rest =>
    let summary_input := if s.isMt5 then "summarize: " ++ chunk else chunk
    (match s.run summary_input maxLen minLen with
      | .ok t => t
      | .error _ => "📝 " ++ fallback_summary chunk language) ::
      summarize_chunks s language maxLen minLen rest

/-- `AudioProcessor.summarize_text`.  Empty input and input below 20 words
short-circuit to sentinel strings before the capability is consulted; the
summarizer is loaded (outside any `try` block — a load failure propagates),
each chunk is summarized with per-chunk degradation, and the chunk summaries
are joined with blank lines. -/
def summarize_text (load : String → Except String Summarizer)
    (text language : String) (max_length min_length : Option Nat) :
    Except String String :=
  if stripWs text.data = [] then .ok "⚠️ Empty input. Skipped."
  else if (pySplit text.data).length < 20 then
    .ok "ℹ️ Text too short to summarize. Consider keeping as-is."
  else
    let maxLen := max_length.getD (if language = "ur" then 8 else 150)
    let minLen := min_length.getD (if language = "ur" then 3 else 50)
    match load language with
    | .error e => .error e
    | .ok s =>
      .ok (pyJoinStr "\n\n"
        (summarize_chunks s language maxLen minLen (chunk_text text language none)))

/-! ### Pipeline orchestration -/

/-- The external effects one `process_pipeline` run can perform: the Whisper
transcription (with its transcript-file writes), the sentence-file write,
the summarizer loading (`self._load_summarizer` with whatever the instance
has cached), and the summary-file write.  Each may fail. -/
structure PipelineEnv where
  transcribe : String → String → Except String String
  writeSentences : Except String Unit
  loadSummarizer : String → Except String Summarizer
  writeSummary : Except String Unit

/-- The `results` dict built up by `process_pipeline`; `none` models an
absent key. -/
structure PipelineResults where
  transcription : Option String := none
  language : Option String := none
  word_count : Option Nat := none
  sentences : Option (List String) := none
  sentence_count : Option Nat := none
  key_phrases : Option (List String) := none
  summary : Option String := none
  summary_file : Option String := none
  status : Option String := none
  error : Option String := none
deriving DecidableEq

/-- `AudioProcessor.process_sentences`: the regex split plus the
sentence-file write (an external effect that may fail). -/
def process_sentences (writeOut : Except String Unit) (text language : String) :
    Except String (List String) :=
  match writeOut with
  | .ok _ => .ok (_regex_sentence_split text language)
  | .error e => .error e

/-- `AudioProcessor.process_pipeline`: the linear pipeline over one audio
input.  The `results` dict accumulates the fields of each completed stage;
the surrounding `try` turns the first stage failure into
`status = "error"` plus a message, leaving the already-recorded fields in
place. -/
def process_pipeline (env : PipelineEnv) (file_name language : String) :
    PipelineResults :=
  let fail : PipelineResults → String → PipelineResults := fun r e =>
    { r with status := some "error", error := some ("Pipeline failed: " ++ e) }
  let audio_file := "audio/" ++ file_name ++ ".mp3"
  match env.transcribe audio_file language with
  | .error e => fail {} e
  | .ok transcription =>
    let r1 : PipelineResults :=
      { transcription := some transcription, language := some language,
        word_count := some (pySplit transcription.data).length }
    match process_sentences env.writeSentences transcription language with
    | .error e => fail r1 e
    | .ok sentences =>
      let r2 := { r1 with
        sentences := some sentences, sentence_count := some sentences.length }
      match extract_key_phrases transcription language with
      | none => fail r2 "argument of type NoneType is not iterable"
      | some key_phrases =>
        let r3 := { r2 with key_phrases := some key_phrases }
        let combined_text := pyJoinStr " " sentences
        match summarize_text env.loadSummarizer combined_text language none none with
        | .error e => fail r3 e
        | .ok summary =>
          match env.writeSummary with
          | .error e => fail r3 e
          | .ok _ =>
            { r3 with
              summary := some summary,
              summary_file := some ("analysis/" ++ file_name ++ "_" ++ language
                ++ "_summary.txt"),
              status := some "success" }

/-- `AudioProcessor.process_batch`: run the pipeline independently on each
audio file (`files` lists the stems in glob order), aggregating stem →
result.  The per-item `try` in the source never fires, because
`process_pipeline` already catches every stage failure. -/
def process_batch (files : List String) (envOf : String → PipelineEnv)
    (language : String) : List (String × PipelineResults) :=
  files.map (fun f => (f, process_pipeline (envOf f) f language))

/-! ### Derived notions used to state the theorems -/

/-- Characters on which the NFKC model acts trivially: no compatibility
decomposition, and not one of the combining marks that can close a canonical
composition. -/
def nfkcPlain (c : Char) : Bool :=
  !(decide (0xFB8E ≤ c.toNat ∧ c.toNat ≤ 0xFB91)) &&
  !(decide (0xFBFC ≤ c.toNat ∧ c.toNat ≤ 0xFBFF)) &&
  !isCompSecond c

/-- Number of occurrences of `w` in `ws`. -/
def countOcc (ws : List String) (w : String) : Nat :=
  (ws.filter (fun v => v = w)).length

/-- First occurrences in encounter order — the key order of an
insertion-ordered dict. -/
def dedupFirst (ws : List String) : List String :=
  ws.foldl (fun acc w => if w ∈ acc then acc else acc ++ [w]) []

/-- The token stream that `word_freq` actually counts: the tokens that are
not stop words and are longer than 2 characters. -/
def kp_filtered (text language : String) : List String :=
  (kp_words text language).filter
    (fun w => decide (w ∉ (stop_words language).getD [] ∧ 2 < w.length))

/-! ### Concrete fixtures used by the verification theorems -/

/-- A loaded mT5 summarizer handle. -/
def mt5Summarizer : Summarizer :=
  { model := "google/mt5-small", isMt5 := true, run := fun _ _ _ => .ok "ok" }

/-- A loaded BART summarizer handle. -/
def bartSummarizer : Summarizer :=
  { model := "facebook/bart-large-cnn", isMt5 := false, run := fun _ _ _ => .ok "ok" }

/-- A model loader for which every load succeeds, returning a handle for the
requested model. -/
def loadAlways : String → Except String Summarizer := fun name =>
  if name = "facebook/bart-large-cnn" then .ok bartSummarizer else .ok mt5Summarizer

/-- A summarizer loader whose initialization always fails (both the preferred
model and the BART fallback). -/
def failingLoader : String → Except String Summarizer := fun _ => .error "load failed"

/-- A pipeline environment whose only failure is the sentence-file write. -/
def sentenceWriteFailEnv : PipelineEnv :=
  { transcribe := fun _ _ => .ok "x y z", writeSentences := .error "disk full",
    loadSummarizer := fun _ => .ok bartSummarizer, writeSummary := .ok () }

/-- A pipeline environment in which every external effect succeeds. -/
def goodEnv : PipelineEnv :=
  { transcribe := fun _ _ => .ok "hello there friend", writeSentences := .ok (),
    loadSummarizer := fun _ => .ok bartSummarizer, writeSummary := .ok () }

/-- A pipeline environment whose audio file is missing: transcription raises
the `FileNotFoundError`. -/
def missingFileEnv : PipelineEnv :=
  { transcribe := fun audio_file _ => .error ("Audio file not found: " ++ audio_file),
    writeSentences := .ok (), loadSummarizer := fun _ => .ok bartSummarizer,
    writeSummary := .ok () }

/-- Batch fixture: the item named "b" has the missing audio file, the other
items succeed end to end. -/
def batchEnvOf : String → PipelineEnv := fun f =>
  if f = "b" then missingFileEnv else goodEnv

/-! ### Unfolding lemmas for the fuel-based and run-based recursions -/

theorem runsOf_neg (p : Char → Bool) (c : Char) (cs : List Char)
    (h : p c = false) : runsOf p (c :: cs) = runsOf p cs := by
  simp [runsOf, runsStep, h]

/-- The characteristic equation of `runsOf` on a run-opening character:
the run is the maximal `p`-segment, and scanning resumes after it. -/
theorem runsOf_pos (p : Char → Bool) :
    ∀ (cs : List Char) (c : Char), p c = true →
      runsOf p (c :: cs) = (c :: cs.takeWhile p) :: runsOf p (cs.dropWhile p) := by
  intro cs
  induction cs with
  | nil => intro c h; simp [runsOf, runsStep, h]
  | cons d cs' ih =>
    intro c h
    show runsStep p c (d :: cs') (runsOf p (d :: cs')) = _
    cases hd : p d with
    | true =>
      rw [ih d hd]
      simp [runsStep, h, hd, List.takeWhile_cons, List.dropWhile_cons]
    | false =>
      rw [runsOf_neg p d cs' hd]
      simp only [runsStep, h, if_true, List.takeWhile_cons, List.dropWhile_cons, hd]
      cases hrest : runsOf p cs' with
      | nil => simp [runsOf_neg p d cs' hd, hrest]
      | cons r rs => simp [hd, runsOf_neg p d cs' hd, hrest]

theorem composeFuel_eq (fuel : Nat) :
    ∀ l : List Char, l.length ≤ fuel → composeFuel fuel l = composeList l := by
  induction fuel with
  | zero =>
    intro l hl
    match l with
    | [] => rfl
    | [c] => rfl
    | a :: b :: t => simp at hl
  | succ f ih =>
    intro l hl
    match l with
    | [] => rfl
    | [c] => rfl
    | a :: b :: t =>
      have hc : ∀ c : Char, composeFuel f (c :: t) = composeList (c :: t) := by
        intro c
        apply ih
        simp only [List.length_cons] at hl ⊢
        omega
      show (match composePair a b with
            | some c => composeFuel f (c :: t)
            | none => a :: composeFuel f (b :: t)) =
          composeList (a :: b :: t)
      have hrhs : composeList (a :: b :: t) =
          (match composePair a b with
            | some c => composeFuel (t.length + 1) (c :: t)
            | none => a :: composeFuel (t.length + 1) (b :: t)) := rfl
      rw [hrhs]
      cases hab : composePair a b with
      | some c =>
        show composeFuel f (c :: t) = composeFuel (t.length + 1) (c :: t)
        rw [hc c]
        rfl
      | none =>
        show a :: composeFuel f (b :: t) = a :: composeFuel (t.length + 1) (b :: t)
        rw [hc b]
        rfl

/-- The characteristic equation of the composition pass. -/
theorem composeList_cons_cons (a b : Char) (t : List Char) :
    composeList (a :: b :: t) =
      (match composePair a b with
        | some c => composeList (c :: t)
        | none => a :: composeList (b :: t)) := by
  show (match composePair a b with
        | some c => composeFuel (t.length + 1) (c :: t)
        | none => a :: composeFuel (t.length + 1) (b :: t)) = _
  cases hab : composePair a b with
  | some c => rfl
  | none => rfl

theorem chunksOfFuel_eq {α : Type} (m : Nat) :
    ∀ (n : Nat) (ws : List α) (fuel : Nat), ws.length ≤ n → ws.length ≤ fuel →
      chunksOfFuel m fuel ws = chunksOf m ws := by
  intro n
  induction n with
  | zero =>
    intro ws fuel h0 _
    match ws with
    | [] =>
      match fuel with
      | 0 => rfl
      | f + 1 => rfl
    | w :: ws' => simp at h0
  | succ n ih =>
    intro ws fuel hn hf
    match ws with
    | [] =>
      match fuel with
      | 0 => rfl
      | f + 1 => rfl
    | w :: ws' =>
      match fuel with
      | 0 => simp at hf
      | f + 1 =>
        have hd : (ws'.drop (m - 1)).length ≤ ws'.length := by
          simp [List.length_drop]
        have hn' : ws'.length ≤ n := by
          simp only [List.length_cons] at hn; omega
        have hf' : ws'.length ≤ f := by
          simp only [List.length_cons] at hf; omega
        have h1 : chunksOfFuel m f (ws'.drop (m - 1)) = chunksOf m (ws'.drop (m - 1)) :=
          ih _ _ (le_trans hd hn') (le_trans hd hf')
        have h2 : chunksOfFuel m ws'.length (ws'.drop (m - 1)) = chunksOf m (ws'.drop (m - 1)) :=
          ih _ _ (le_trans hd hn') hd
        show (w :: ws'.take (m - 1)) :: chunksOfFuel m f (ws'.drop (m - 1)) =
          (w :: ws'.take (m - 1)) :: chunksOfFuel m ws'.length (ws'.drop (m - 1))
        rw [h1, h2]

/-- The characteristic equation of `chunksOf`. -/
theorem chunksOf_cons {α : Type} (m : Nat) (w : α) (ws : List α) :
    chunksOf m (w :: ws) = (w :: ws.take (m - 1)) :: chunksOf m (ws.drop (m - 1)) := by
  have hd : (ws.drop (m - 1)).length ≤ ws.length := by
    simp [List.length_drop]
  show (w :: ws.take (m - 1)) :: chunksOfFuel m ws.length (ws.drop (m - 1)) = _
  rw [chunksOfFuel_eq m ws.length (ws.drop (m - 1)) ws.length hd hd]

/-- The per-chunk loop written as a `map`: each chunk contributes its
summary, or the marked fallback when its summarization call fails. -/
theorem summarize_chunks_eq_map (s : Summarizer) (language : String)
    (maxLen minLen : Nat) (chunks : List String) :
    summarize_chunks s language maxLen minLen chunks =
      chunks.map (fun chunk =>
        match s.run (if s.isMt5 then "summarize: " ++ chunk else chunk) maxLen minLen with
        | .ok t => t
        | .error _ => "📝 " ++ fallback_summary chunk language) := by
  induction chunks with
  | nil => rfl
  | cons c rest ih => simp [summarize_chunks, ih]

/-! ### Character-membership lemmas for the whitespace collapser -/

theorem mem_of_dropWhile (p : Char → Bool) (l : List Char) (c : Char)
    (h : c ∈ l.dropWhile p) : c ∈ l := by
  induction l with
  | nil => simp [List.dropWhile] at h
  | cons d cs ih =>
    rw [List.dropWhile_cons] at h
    by_cases hd : p d
    · simp only [hd, if_true] at h
      exact List.mem_cons_of_mem _ (ih h)
    · simpa [hd] using h

theorem mem_subWsRuns (l : List Char) (c : Char) :
    ∀ b : Bool, c ∈ subWsRuns b l → c ∈ l ∨ c = ' ' := by
  induction l with
  | nil => intro b h; cases b <;> simp [subWsRuns] at h
  | cons d cs ih =>
    intro b h
    cases b with
    | true =>
      cases hd : isPyWs d with
      | true =>
        simp [subWsRuns, hd] at h
        rcases ih true h with h' | h'
        · exact Or.inl (List.mem_cons_of_mem _ h')
        · exact Or.inr h'
      | false =>
        simp [subWsRuns, hd] at h
        rcases h with h | h
        · exact Or.inl (by simp [h])
        · rcases ih false h with h' | h'
          · exact Or.inl (List.mem_cons_of_mem _ h')
          · exact Or.inr h'
    | false =>
      cases hd : isPyWs d with
      | true =>
        simp [subWsRuns, hd] at h
        rcases h with h | h
        · exact Or.inr h
        · rcases ih true h with h' | h'
          · exact Or.inl (List.mem_cons_of_mem _ h')
          · exact Or.inr h'
      | false =>
        simp [subWsRuns, hd] at h
        rcases h with h | h
        · exact Or.inl (by simp [h])
        · rcases ih false h with h' | h'
          · exact Or.inl (List.mem_cons_of_mem _ h')
          · exact Or.inr h'

theorem mem_stripWs (l : List Char) (c : Char) (h : c ∈ stripWs l) : c ∈ l := by
  unfold stripWs at h
  rw [List.mem_reverse] at h
  have h1 := mem_of_dropWhile _ _ _ h
  rw [List.mem_reverse] at h1
  exact mem_of_dropWhile _ _ _ h1

theorem mem_collapseWs (l : List Char) (c : Char) (h : c ∈ collapseWs l) :
    c ∈ l ∨ c = ' ' := by
  rcases mem_subWsRuns (stripWs l) c false h with h' | h'
  · exact Or.inl (mem_stripWs l c h')
  · exact Or.inr h'

theorem not_mem_map_replace (l : List Char) (a b : Char) (hab : b ≠ a) :
    a ∉ l.map (fun c => if c = a then b else c) := by
  intro h
  rcases List.mem_map.1 h with ⟨c, _, hfc⟩
  by_cases hca : c = a
  · rw [if_pos hca] at hfc
    exact hab hfc
  · rw [if_neg hca] at hfc
    exact hca hfc

theorem not_mem_map_of_not_mem (l : List Char) (f : Char → Char) (a : Char)
    (hl : a ∉ l) (hf : ∀ c, f c = a → c = a) : a ∉ l.map f := by
  intro h
  rcases List.mem_map.1 h with ⟨c, hc, hfc⟩
  have hca := hf c hfc
  subst hca
  exact hl hc

/-! ### Claim C10: the fold invariant of the Urdu normalizer -/

/-- Claim C10.  For every input string, the output of `normalize_urdu`
contains no occurrence of Keheh (U+06A9) and none of Farsi Yeh (U+06CC):
the two folds replace every occurrence of these letters (NFKC first maps
any presentation-form variant into exactly these two letters, which the
folds then remove), and the whitespace collapsing introduces only plain
spaces. -/
theorem claim_C10 (text : String) :
    'ک' ∉ (normalize_urdu text).data ∧ 'ی' ∉ (normalize_urdu text).data := by
  have hdata : (normalize_urdu text).data =
      collapseWs (((nfkc text.data).map (fun c => if c = 'ک' then 'ك' else c)).map
        (fun c => if c = 'ی' then 'ي' else c)) := rfl
  constructor <;> intro hmem <;> rw [hdata] at hmem
  · rcases mem_collapseWs _ _ hmem with h | h
    · exact not_mem_map_of_not_mem _ _ _
        (not_mem_map_replace _ 'ک' 'ك' (by decide))
        (fun c hfc => by
          by_cases hc : c = 'ی'
          · rw [if_pos hc] at hfc
            exact absurd hfc (by decide)
          · rwa [if_neg hc] at hfc) h
    · exact absurd h (by decide)
  · rcases mem_collapseWs _ _ hmem with h | h
    · exact not_mem_map_replace _ 'ی' 'ي' (by decide) h
    · exact absurd h (by decide)

/-! ### Pipeline success and failure lemmas, and claim C9 -/

theorem summarize_text_ok_of_load_ok (load : String → Except String Summarizer)
    (text language : String) (maxL minL : Option Nat)
    (h : ∃ s, load language = .ok s) :
    ∃ out, summarize_text load text language maxL minL = .ok out := by
  obtain ⟨s, hs⟩ := h
  by_cases h1 : stripWs text.data = []
  · exact ⟨"⚠️ Empty input. Skipped.", by simp [summarize_text, h1]⟩
  · by_cases h2 : (pySplit text.data).length < 20
    · exact ⟨"ℹ️ Text too short to summarize. Consider keeping as-is.",
        by simp [summarize_text, h1, h2]⟩
    · exact ⟨pyJoinStr "\n\n" (summarize_chunks s language
          (maxL.getD (if language = "ur" then 8 else 150))
          (minL.getD (if language = "ur" then 3 else 50))
          (chunk_text text language none)),
        by simp [summarize_text, h1, h2, hs]⟩

theorem extract_key_phrases_isSome (text language : String)
    (hlang : language = "ur" ∨ language = "en") :
    ∃ kp, extract_key_phrases text language = some kp := by
  rcases hlang with h | h <;> subst h <;> exact ⟨_, rfl⟩

theorem process_pipeline_success (env : PipelineEnv) (file_name language : String)
    (hlang : language = "ur" ∨ language = "en")
    (ht : ∃ t, env.transcribe ("audio/" ++ file_name ++ ".mp3") language = .ok t)
    (hsn : env.writeSentences = .ok ())
    (hld : ∃ s, env.loadSummarizer language = .ok s)
    (hwr : env.writeSummary = .ok ()) :
    (process_pipeline env file_name language).status = some "success" := by
  obtain ⟨t, ht⟩ := ht
  obtain ⟨kp, hkp⟩ := extract_key_phrases_isSome t language hlang
  obtain ⟨out, hout⟩ := summarize_text_ok_of_load_ok env.loadSummarizer
    (pyJoinStr " " (_regex_sentence_split t language)) language none none hld
  simp [process_pipeline, process_sentences, ht, hsn, hkp, hout, hwr]

theorem process_pipeline_error_of_transcribe (env : PipelineEnv)
    (file_name language e : String)
    (h : env.transcribe ("audio/" ++ file_name ++ ".mp3") language = .error e) :
    (process_pipeline env file_name language).status = some "error" := by
  simp [process_pipeline, h]

/-- Claim C9.  In batch mode the aggregate result maps every listed item to
a result (first conjunct, for arbitrary batches), and the failure of one
item does not halt the others: in a batch of three items whose middle item
fails transcription (e.g. a missing audio file) while the outer two have
working stages, items 1 and 3 report success, item 2 reports error, and all
three keys are present. -/
theorem claim_C9 (files : List String) (envOf : String → PipelineEnv)
    (language : String) (f1 f2 f3 e : String)
    (hlang : language = "ur" ∨ language = "en")
    (h1t : ∃ t, (envOf f1).transcribe ("audio/" ++ f1 ++ ".mp3") language = .ok t)
    (h1s : (envOf f1).writeSentences = .ok ())
    (h1l : ∃ s, (envOf f1).loadSummarizer language = .ok s)
    (h1w : (envOf f1).writeSummary = .ok ())
    (h2 : (envOf f2).transcribe ("audio/" ++ f2 ++ ".mp3") language = .error e)
    (h3t : ∃ t, (envOf f3).transcribe ("audio/" ++ f3 ++ ".mp3") language = .ok t)
    (h3s : (envOf f3).writeSentences = .ok ())
    (h3l : ∃ s, (envOf f3).loadSummarizer language = .ok s)
    (h3w : (envOf f3).writeSummary = .ok ()) :
    ((process_batch files envOf language).map Prod.fst = files) ∧
    ∃ p1 p2 p3,
      process_batch [f1, f2, f3] envOf language = [(f1, p1), (f2, p2), (f3, p3)] ∧
      p1.status = some "success" ∧ p2.status = some "error" ∧
      p3.status = some "success" := by
  constructor
  · simp only [process_batch, List.map_map]
    have hid : (Prod.fst ∘ fun f : String => (f, process_pipeline (envOf f) f language)) =
        id := rfl
    rw [hid, List.map_id]
  · exact ⟨_, _, _, rfl,
      process_pipeline_success (envOf f1) f1 language hlang h1t h1s h1l h1w,
      process_pipeline_error_of_transcribe (envOf f2) f2 language e h2,
      process_pipeline_success (envOf f3) f3 language hlang h3t h3s h3l h3w⟩

/-- Claim C9, witness: a concrete three-item batch where item `"b"`'s audio
file is missing — `"a"` and `"c"` succeed, `"b"` errors, and all three keys
are present in the aggregate. -/
theorem claim_C9_witness :
    ((process_batch ["a", "b", "c"] batchEnvOf "en").map Prod.fst =
      ["a", "b", "c"]) ∧
    ∃ p1 p2 p3,
      process_batch ["a", "b", "c"] batchEnvOf "en" =
        [("a", p1), ("b", p2), ("c", p3)] ∧
      p1.status = some "success" ∧ p2.status = some "error" ∧
      p3.status = some "success" :=
  claim_C9 ["a", "b", "c"] batchEnvOf "en" "a" "b" "c"
    ("Audio file not found: " ++ "audio/b.mp3") (Or.inr rfl)
    ⟨"hello there friend", rfl⟩ rfl ⟨bartSummarizer, rfl⟩ rfl
    rfl
    ⟨"hello there friend", rfl⟩ rfl ⟨bartSummarizer, rfl⟩ rfl

/-! ### Chunking lemmas and claim C5 -/

theorem chunksOf_flatten_aux {α : Type} (m : Nat) :
    ∀ (n : Nat) (l : List α), l.length ≤ n → (chunksOf m l).flatten = l := by
  intro n
  induction n with
  | zero =>
    intro l h
    match l with
    | [] => rfl
    | x :: xs => simp at h
  | succ n ih =>
    intro l h
    match l with
    | [] => rfl
    | w :: ws =>
      rw [chunksOf_cons]
      simp only [List.flatten_cons]
      have hlen : (ws.drop (m - 1)).length ≤ n := by
        simp only [List.length_drop]
        simp only [List.length_cons] at h
        omega
      rw [ih _ hlen]
      simp [List.take_append_drop]

/-- Chunking splits the word list without loss or reordering. -/
theorem chunksOf_flatten {α : Type} (m : Nat) (l : List α) :
    (chunksOf m l).flatten = l :=
  chunksOf_flatten_aux m l.length l le_rfl

theorem chunksOf_mem_props {α : Type} (m : Nat) (hm : 0 < m) :
    ∀ (n : Nat) (l : List α), l.length ≤ n →
      ∀ c ∈ chunksOf m l, c ≠ [] ∧ c.length ≤ m := by
  intro n
  induction n with
  | zero =>
    intro l h c hc
    match l with
    | [] => simp [chunksOf, chunksOfFuel] at hc
    | x :: xs => simp at h
  | succ n ih =>
    intro l h c hc
    match l with
    | [] => simp [chunksOf, chunksOfFuel] at hc
    | w :: ws =>
      rw [chunksOf_cons] at hc
      rcases List.mem_cons.1 hc with hc | hc
      · subst hc
        refine ⟨by simp, ?_⟩
        simp only [List.length_cons, List.length_take]
        omega
      · have hlen : (ws.drop (m - 1)).length ≤ n := by
          simp only [List.length_drop]
          simp only [List.length_cons] at h
          omega
        exact ih (ws.drop (m - 1)) hlen c hc

theorem chunksOf_dropLast_len {α : Type} (m : Nat) (hm : 0 < m) :
    ∀ (n : Nat) (l : List α), l.length ≤ n →
      ∀ c ∈ (chunksOf m l).dropLast, c.length = m := by
  intro n
  induction n with
  | zero =>
    intro l h c hc
    match l with
    | [] => simp [chunksOf, chunksOfFuel] at hc
    | x :: xs => simp at h
  | succ n ih =>
    intro l h c hc
    match l with
    | [] => simp [chunksOf, chunksOfFuel] at hc
    | w :: ws =>
      rw [chunksOf_cons] at hc
      cases hrest : chunksOf m (ws.drop (m - 1)) with
      | nil =>
        rw [hrest] at hc
        simp at hc
      | cons r rs =>
        rw [hrest, List.dropLast_cons₂] at hc
        rcases List.mem_cons.1 hc with hc | hc
        · subst hc
          have hdrop : ws.drop (m - 1) ≠ [] := by
            intro hnil
            rw [hnil] at hrest
            simp [chunksOf, chunksOfFuel] at hrest
          have hlt : m - 1 < ws.length := by
            by_contra hcon
            push_neg at hcon
            exact hdrop (List.drop_eq_nil_of_le hcon)
          simp only [List.length_cons, List.length_take]
          omega
        · have hlen : (ws.drop (m - 1)).length ≤ n := by
            simp only [List.length_drop]
            simp only [List.length_cons] at h
            omega
          exact ih (ws.drop (m - 1)) hlen c (by rw [hrest]; exact hc)

theorem mem_of_mem_chunksOf {α : Type} (m : Nat) (l : List α) (c : List α)
    (hc : c ∈ chunksOf m l) (x : α) (hx : x ∈ c) : x ∈ l := by
  have hmem : x ∈ (chunksOf m l).flatten := List.mem_flatten.2 ⟨c, hc, hx⟩
  rwa [chunksOf_flatten] at hmem

theorem pyJoin_cons_cons (sep : List Char) (w v : List Char)
    (ws : List (List Char)) :
    pyJoin sep (w :: v :: ws) = w ++ sep ++ pyJoin sep (v :: ws) := rfl

theorem pyJoin_append (sep : List Char) :
    ∀ (a b : List (List Char)), a ≠ [] → b ≠ [] →
      pyJoin sep (a ++ b) = pyJoin sep a ++ sep ++ pyJoin sep b := by
  intro a
  induction a with
  | nil => intro b h _; exact absurd rfl h
  | cons w a' ih =>
    intro b _ hb
    cases a' with
    | nil =>
      cases b with
      | nil => exact absurd rfl hb
      | cons v ws => rfl
    | cons v ws =>
      have hih := ih b (by simp) hb
      show pyJoin sep (w :: v :: (ws ++ b)) = _
      rw [pyJoin_cons_cons]
      have hcast : pyJoin sep (v :: (ws ++ b)) = pyJoin sep ((v :: ws) ++ b) := rfl
      rw [hcast, hih, pyJoin_cons_cons]
      simp [List.append_assoc]

theorem pyJoin_flatten (sep : List Char) :
    ∀ (css : List (List (List Char))), (∀ c ∈ css, c ≠ []) →
      pyJoin sep (css.map (pyJoin sep)) = pyJoin sep css.flatten := by
  intro css
  induction css with
  | nil => intro _; rfl
  | cons c rest ih =>
    intro hne
    cases rest with
    | nil => simp [pyJoin]
    | cons d ds =>
      have hc : c ≠ [] := hne c (by simp)
      have hd : d ≠ [] := hne d (by simp)
      have hflat : List.flatten (d :: ds) ≠ [] := by
        cases d with
        | nil => exact absurd rfl hd
        | cons x xs => simp
      have ih' := ih (fun c' hc' => hne c' (List.mem_cons_of_mem _ hc'))
      show pyJoin sep (pyJoin sep c :: pyJoin sep d :: ds.map (pyJoin sep)) =
        pyJoin sep ((c :: d :: ds).flatten)
      rw [pyJoin_cons_cons]
      have hmap : pyJoin sep d :: ds.map (pyJoin sep) =
          (d :: ds).map (pyJoin sep) := rfl
      rw [hmap, ih']
      have hfl : (c :: d :: ds).flatten = c ++ (d :: ds).flatten := rfl
      rw [hfl, pyJoin_append sep c ((d :: ds).flatten) hc hflat]

theorem runsOf_mem_props (p : Char → Bool) :
    ∀ l : List Char, ∀ r ∈ runsOf p l, r ≠ [] ∧ ∀ c ∈ r, p c = true := by
  intro l
  induction l with
  | nil => intro r hr; simp [runsOf] at hr
  | cons d cs ih =>
    intro r hr
    cases hd : p d with
    | false =>
      rw [runsOf_neg p d cs hd] at hr
      exact ih r hr
    | true =>
      have hr' : r ∈ runsStep p d cs (runsOf p cs) := hr
      cases cs with
      | nil =>
        simp [runsStep, hd] at hr'
        subst hr'
        refine ⟨by simp, ?_⟩
        intro c hc
        simp at hc
        subst hc
        exact hd
      | cons e cs' =>
        cases hrest : runsOf p (e :: cs') with
        | nil =>
          rw [hrest] at hr'
          simp [runsStep, hd] at hr'
          subst hr'
          refine ⟨by simp, ?_⟩
          intro c hc
          simp at hc
          subst hc
          exact hd
        | cons r' rs' =>
          rw [hrest] at hr'
          have hihr' := ih r' (by rw [hrest]; simp)
          cases he : p e with
          | true =>
            simp [runsStep, hd, he] at hr'
            rcases hr' with hr' | hr'
            · subst hr'
              refine ⟨by simp, ?_⟩
              intro c hc
              rcases List.mem_cons.1 hc with hc | hc
              · subst hc; exact hd
              · exact hihr'.2 c hc
            · exact ih r (by rw [hrest]; exact List.mem_cons_of_mem _ hr')
          | false =>
            simp [runsStep, hd, he] at hr'
            rcases hr' with hr' | hr'
            · subst hr'
              refine ⟨by simp, ?_⟩
              intro c hc
              simp at hc
              subst hc
              exact hd
            · exact ih r (by rw [hrest]; exact List.mem_cons.2 hr')

/-- Every token produced by `text.split()` is nonempty and free of
whitespace. -/
theorem pySplit_mem_props (l : List Char) :
    ∀ r ∈ pySplit l, r ≠ [] ∧ ∀ c ∈ r, isPyWs c = false := by
  intro r hr
  have h := runsOf_mem_props (fun c => !isPyWs c) l r hr
  refine ⟨h.1, fun c hc => ?_⟩
  have := h.2 c hc
  simpa using this

theorem pyJoin_any_not_ws (sep : List Char) (w : List Char)
    (rest : List (List Char)) (hw : w ≠ [])
    (hch : ∀ ch ∈ w, isPyWs ch = false) :
    (pyJoin sep (w :: rest)).any (fun ch => !isPyWs ch) = true := by
  cases rest with
  | nil =>
    cases w with
    | nil => exact absurd rfl hw
    | cons ch w' =>
      have hc := hch ch (by simp)
      show ((ch :: w').any (fun ch => !isPyWs ch)) = true
      simp [List.any_cons, hc]
  | cons v rs =>
    rw [pyJoin_cons_cons]
    cases w with
    | nil => exact absurd rfl hw
    | cons ch w' =>
      have hc := hch ch (by simp)
      simp [List.any_append, List.any_cons, hc]

theorem pyJoin_ne_nil (sep : List Char) (w : List Char) (rest : List (List Char))
    (hw : w ≠ []) : pyJoin sep (w :: rest) ≠ [] := by
  cases rest with
  | nil => exact hw
  | cons v rs =>
    rw [pyJoin_cons_cons]
    cases w with
    | nil => exact absurd rfl hw
    | cons ch w' => simp

/-- Claim C5.  For every text, language and (positive, when supplied)
`max_words`: the chunker is exactly the grouping of the whitespace tokens
into consecutive runs of `max_words` words rejoined with single spaces (the
non-blank filter removes nothing); the groups concatenate back to the token
list in order; every group is nonempty with at most `max_words` tokens, and
every group except possibly the last has exactly `max_words` tokens; no
emitted chunk is the empty string; rejoining the chunks with single spaces
reconstructs the whitespace-normalized text `' '.join(text.split())`; and an
unsupplied `max_words` defaults to 300 for `ur` and 500 for `en`. -/
theorem claim_C5 (text language : String) (max_words : Option Nat)
    (hm : ∀ k, max_words = some k → 0 < k) :
    chunk_text text language max_words =
      (chunksOf (max_words.getD (if language = "ur" then 300 else 500))
        (pySplit text.data)).map (fun c => String.mk (pyJoin [' '] c)) ∧
    (chunksOf (max_words.getD (if language = "ur" then 300 else 500))
        (pySplit text.data)).flatten = pySplit text.data ∧
    (∀ c ∈ chunksOf (max_words.getD (if language = "ur" then 300 else 500))
        (pySplit text.data),
      c ≠ [] ∧ c.length ≤ max_words.getD (if language = "ur" then 300 else 500)) ∧
    (∀ c ∈ (chunksOf (max_words.getD (if language = "ur" then 300 else 500))
        (pySplit text.data)).dropLast,
      c.length = max_words.getD (if language = "ur" then 300 else 500)) ∧
    (∀ s ∈ chunk_text text language max_words, s ≠ "") ∧
    pyJoinStr " " (chunk_text text language max_words) =
      String.mk (pyJoin [' '] (pySplit text.data)) ∧
    chunk_text text "ur" none = chunk_text text "ur" (some 300) ∧
    chunk_text text "en" none = chunk_text text "en" (some 500) := by
  have hm0 : 0 < max_words.getD (if language = "ur" then 300 else 500) := by
    cases max_words with
    | none => simp only [Option.getD_none]; split <;> omega
    | some k => exact hm k rfl
  set m := max_words.getD (if language = "ur" then 300 else 500) with hmdef
  set words := pySplit text.data with hwords
  have htok : ∀ r ∈ words, r ≠ [] ∧ ∀ c ∈ r, isPyWs c = false :=
    pySplit_mem_props text.data
  have hprops : ∀ c ∈ chunksOf m words, c ≠ [] ∧ c.length ≤ m :=
    chunksOf_mem_props m hm0 words.length words le_rfl
  have hchunk_ne : ∀ c ∈ chunksOf m words, c ≠ [] := fun c hc => (hprops c hc).1
  have hchunk_tok : ∀ c ∈ chunksOf m words, ∀ w ∈ c, w ≠ [] ∧
      ∀ ch ∈ w, isPyWs ch = false := by
    intro c hc w hw
    exact htok w (mem_of_mem_chunksOf m words c hc w hw)
  have hfilter : ((chunksOf m words).map (pyJoin [' '])).filter
      (fun c => c.any (fun ch => !isPyWs ch)) =
      (chunksOf m words).map (pyJoin [' ']) := by
    rw [List.filter_eq_self]
    intro a ha
    rcases List.mem_map.1 ha with ⟨c, hc, hac⟩
    subst hac
    match c, hchunk_ne c hc with
    | w :: rest, _ =>
      have hw := hchunk_tok (w :: rest) hc w (by simp)
      exact pyJoin_any_not_ws [' '] w rest hw.1 hw.2
  have hct : chunk_text text language max_words =
      (chunksOf m words).map (fun c => String.mk (pyJoin [' '] c)) := by
    show (((chunksOf m words).map (pyJoin [' '])).filter
        (fun c => c.any (fun ch => !isPyWs ch))).map String.mk = _
    rw [hfilter, List.map_map]
    rfl
  refine ⟨hct, chunksOf_flatten m words, hprops,
    chunksOf_dropLast_len m hm0 words.length words le_rfl, ?_, ?_, rfl, rfl⟩
  · intro s hs
    rw [hct] at hs
    rcases List.mem_map.1 hs with ⟨c, hc, hsc⟩
    subst hsc
    match c, hchunk_ne c hc with
    | w :: rest, _ =>
      have hw := hchunk_tok (w :: rest) hc w (by simp)
      have hne := pyJoin_ne_nil [' '] w rest hw.1
      intro hcon
      apply hne
      have : (String.mk (pyJoin [' '] (w :: rest))).data = ("" : String).data :=
        congrArg String.data hcon
      simpa using this
  · rw [hct]
    show String.mk (pyJoin [' ']
        (((chunksOf m words).map (fun c => String.mk (pyJoin [' '] c))).map
          String.data)) = _
    rw [List.map_map]
    have hcomp : (String.data ∘ fun c => String.mk (pyJoin [' '] c)) =
        (fun c => pyJoin [' '] c) := rfl
    rw [hcomp]
    have hjf : pyJoin [' '] ((chunksOf m words).map (pyJoin [' '])) =
        pyJoin [' '] (chunksOf m words).flatten :=
      pyJoin_flatten [' '] (chunksOf m words) hchunk_ne
    rw [show ((chunksOf m words).map fun c => pyJoin [' '] c) =
        (chunksOf m words).map (pyJoin [' ']) from rfl, hjf, chunksOf_flatten]

/-- Claim C5, witness: the chunker on `"a b c d e"` with `max_words = 2`. -/
theorem claim_C5_witness :
    (∀ k, (some 2 : Option Nat) = some k → 0 < k) ∧
    chunk_text "a b c d e" "en" (some 2) =
      (chunksOf ((some 2 : Option Nat).getD (if ("en" : String) = "ur" then 300 else 500))
        (pySplit ("a b c d e" : String).data)).map
          (fun c => String.mk (pyJoin [' '] c)) ∧
    pyJoinStr " " (chunk_text "a b c d e" "en" (some 2)) =
      String.mk (pyJoin [' '] (pySplit ("a b c d e" : String).data)) := by
  have h := claim_C5 "a b c d e" "en" (some 2)
    (fun k hk => by cases hk; omega)
  exact ⟨fun k hk => by cases hk; omega, h.1, h.2.2.2.2.2.1⟩

/-! ### The whitespace collapser computes the canonical join of the tokens -/

theorem dropWhile_length_le (p : Char → Bool) (l : List Char) :
    (l.dropWhile p).length ≤ l.length := by
  induction l with
  | nil => simp [List.dropWhile]
  | cons c cs ih =>
    rw [List.dropWhile_cons]
    cases hc : p c with
    | true =>
      simp only [if_true]
      exact Nat.le_succ_of_le ih
    | false => simp

theorem subWsRuns_true_eq (l : List Char) :
    subWsRuns true l = subWsRuns false (l.dropWhile isPyWs) := by
  induction l with
  | nil => rfl
  | cons c cs ih =>
    rw [List.dropWhile_cons]
    cases hc : isPyWs c with
    | true => simp only [if_true]; simp [subWsRuns, hc, ih]
    | false => simp [subWsRuns, hc]

theorem head_dropWhile_not (p : Char → Bool) (l : List Char) :
    ∀ c, (l.dropWhile p).head? = some c → p c = false := by
  induction l with
  | nil => intro c h; simp [List.dropWhile] at h
  | cons d cs ih =>
    intro c h
    rw [List.dropWhile_cons] at h
    cases hd : p d with
    | true =>
      simp only [hd, if_true] at h
      exact ih c h
    | false =>
      simp only [hd] at h
      simp at h
      rw [← h]
      exact hd

theorem getLast?_dropWhile (p : Char → Bool) :
    ∀ l : List Char, l.dropWhile p ≠ [] →
      (l.dropWhile p).getLast? = l.getLast? := by
  intro l
  induction l with
  | nil => intro h; simp [List.dropWhile] at h
  | cons d cs ih =>
    intro h
    rw [List.dropWhile_cons] at h ⊢
    cases hd : p d with
    | true =>
      simp only [hd, if_true] at h ⊢
      match cs, h with
      | e :: cs', h =>
        rw [ih h, List.getLast?_cons_cons]
    | false => simp [hd]

theorem getLast?_ws_of_all_ws (l : List Char) (hne : l ≠ [])
    (hall : ∀ x ∈ l, isPyWs x = true) :
    ∃ x, l.getLast? = some x ∧ isPyWs x = true := by
  match l, hne with
  | c :: cs, _ =>
    refine ⟨(c :: cs).getLast (by simp), ?_, ?_⟩
    · exact List.getLast?_eq_getLast_of_ne_nil (by simp)
    · exact hall _ (List.getLast_mem _)

theorem pySplit_dropWs (l : List Char) :
    pySplit l = pySplit (l.dropWhile isPyWs) := by
  induction l with
  | nil => rfl
  | cons c cs ih =>
    rw [List.dropWhile_cons]
    cases hc : isPyWs c with
    | true =>
      simp only [if_true]
      rw [← ih]
      unfold pySplit
      rw [runsOf_neg _ c cs (by simp [hc])]
    | false => simp

theorem pySplit_all_ws (w : List Char) (h : ∀ c ∈ w, isPyWs c = true) :
    pySplit w = [] := by
  induction w with
  | nil => rfl
  | cons c cs ih =>
    unfold pySplit
    rw [runsOf_neg _ c cs (by simp [h c (by simp)])]
    exact ih (fun x hx => h x (by simp [hx]))

theorem wsAppend_take_drop (w : List Char) (hw : ∀ c ∈ w, isPyWs c = true) :
    ∀ cs : List Char,
      (cs ++ w).takeWhile (fun x => !isPyWs x) =
        cs.takeWhile (fun x => !isPyWs x) ∧
      (cs ++ w).dropWhile (fun x => !isPyWs x) =
        cs.dropWhile (fun x => !isPyWs x) ++ w := by
  intro cs
  induction cs with
  | nil =>
    constructor
    · cases w with
      | nil => rfl
      | cons c ws' => simp [List.takeWhile_cons, hw c (by simp)]
    · cases w with
      | nil => rfl
      | cons c ws' => simp [List.dropWhile_cons, hw c (by simp)]
  | cons a cs' ih =>
    cases ha : isPyWs a with
    | true =>
      constructor
      · simp [List.takeWhile_cons, ha]
      · simp [List.dropWhile_cons, ha]
    | false =>
      constructor
      · simp [List.takeWhile_cons, ha, ih.1]
      · simp [List.dropWhile_cons, ha, ih.2]

theorem pySplit_append_ws :
    ∀ (n : Nat) (x w : List Char), x.length ≤ n →
      (∀ c ∈ w, isPyWs c = true) → pySplit (x ++ w) = pySplit x := by
  intro n
  induction n with
  | zero =>
    intro x w hx hw
    match x with
    | [] => exact pySplit_all_ws w hw
    | c :: cs => simp at hx
  | succ n ih =>
    intro x w hx hw
    match x with
    | [] => exact pySplit_all_ws w hw
    | c :: cs =>
      cases hc : isPyWs c with
      | true =>
        show pySplit (c :: (cs ++ w)) = _
        unfold pySplit
        rw [runsOf_neg _ c (cs ++ w) (by simp [hc]), runsOf_neg _ c cs (by simp [hc])]
        have hlen : cs.length ≤ n := by
          simp only [List.length_cons] at hx
          omega
        exact ih cs w hlen hw
      | false =>
        show pySplit (c :: (cs ++ w)) = _
        unfold pySplit
        rw [runsOf_pos _ (cs ++ w) c (by simp [hc]), runsOf_pos _ cs c (by simp [hc])]
        rw [(wsAppend_take_drop w hw cs).1, (wsAppend_take_drop w hw cs).2]
        have hlen : (cs.dropWhile (fun x => !isPyWs x)).length ≤ n := by
          have := dropWhile_length_le (fun x => !isPyWs x) cs
          simp only [List.length_cons] at hx
          omega
        have := ih (cs.dropWhile (fun x => !isPyWs x)) w hlen hw
        unfold pySplit at this
        rw [this]

theorem head?_stripWs (l : List Char) :
    ∀ c, (stripWs l).head? = some c → isPyWs c = false := by
  intro c h
  unfold stripWs at h
  rw [List.head?_reverse] at h
  by_cases hnil : ((l.dropWhile isPyWs).reverse.dropWhile isPyWs) = []
  · rw [hnil] at h
    cases h
  · rw [getLast?_dropWhile isPyWs _ hnil, List.getLast?_reverse] at h
    exact head_dropWhile_not isPyWs l c h

theorem getLast?_stripWs (l : List Char) :
    ∀ c, (stripWs l).getLast? = some c → isPyWs c = false := by
  intro c h
  unfold stripWs at h
  rw [List.getLast?_reverse] at h
  exact head_dropWhile_not isPyWs (l.dropWhile isPyWs).reverse c h

theorem pySplit_stripWs (l : List Char) : pySplit (stripWs l) = pySplit l := by
  have hA : pySplit l = pySplit (l.dropWhile isPyWs) := pySplit_dropWs l
  set A := l.dropWhile isPyWs with hAdef
  have hsplitA : A = stripWs l ++ (A.reverse.takeWhile isPyWs).reverse := by
    have h1 : A.reverse.takeWhile isPyWs ++ A.reverse.dropWhile isPyWs = A.reverse :=
      List.takeWhile_append_dropWhile isPyWs A.reverse
    have h2 : A = (A.reverse.takeWhile isPyWs ++ A.reverse.dropWhile isPyWs).reverse := by
      rw [h1, List.reverse_reverse]
    rw [List.reverse_append] at h2
    exact h2
  have hws : ∀ c ∈ (A.reverse.takeWhile isPyWs).reverse, isPyWs c = true := by
    intro c hc
    rw [List.mem_reverse] at hc
    exact List.mem_takeWhile_imp hc
  rw [hA, hsplitA]
  exact (pySplit_append_ws (stripWs l).length (stripWs l)
    ((A.reverse.takeWhile isPyWs).reverse) le_rfl hws).symm

theorem pyJoin_cons_head (sep : List Char) (c : Char) (tok : List Char)
    (rest : List (List Char)) :
    pyJoin sep ((c :: tok) :: rest) = c :: pyJoin sep (tok :: rest) := by
  cases rest with
  | nil => rfl
  | cons r rs => rfl

/-- On text with no leading and no trailing whitespace, collapsing the
whitespace runs computes exactly `' '.join(text.split())`. -/
theorem subWsRuns_eq_join :
    ∀ (n : Nat) (l : List Char), l.length ≤ n →
      (∀ c, l.head? = some c → isPyWs c = false) →
      (∀ c, l.getLast? = some c → isPyWs c = false) →
      subWsRuns false l = pyJoin [' '] (pySplit l) := by
  intro n
  induction n with
  | zero =>
    intro l hlen _ _
    match l with
    | [] => rfl
    | c :: cs => simp at hlen
  | succ n ih =>
    intro l hlen hhead hlast
    match l with
    | [] => rfl
    | c :: cs =>
      have hc : isPyWs c = false := hhead c rfl
      have hsub : subWsRuns false (c :: cs) = c :: subWsRuns false cs := by
        simp [subWsRuns, hc]
      have hsplit : pySplit (c :: cs) =
          (c :: cs.takeWhile (fun x => !isPyWs x)) ::
            runsOf (fun x => !isPyWs x) (cs.dropWhile (fun x => !isPyWs x)) :=
        runsOf_pos _ cs c (by simp [hc])
      match cs with
      | [] =>
        rw [hsub, hsplit]
        rfl
      | e :: cs' =>
        have hlen' : (e :: cs').length ≤ n := by
          simp only [List.length_cons] at hlen ⊢
          omega
        have hlast' : ∀ x, (e :: cs').getLast? = some x → isPyWs x = false := by
          intro x hx
          exact hlast x (by rw [List.getLast?_cons_cons]; exact hx)
        cases he : isPyWs e with
        | false =>
          have hih := ih (e :: cs') hlen'
            (fun x hx => by
              simp at hx
              rw [← hx]
              exact he)
            hlast'
          rw [hsub, hih, hsplit]
          have hsplit' : pySplit (e :: cs') =
              (e :: cs'.takeWhile (fun x => !isPyWs x)) ::
                runsOf (fun x => !isPyWs x) (cs'.dropWhile (fun x => !isPyWs x)) :=
            runsOf_pos _ cs' e (by simp [he])
          rw [hsplit']
          have htk : (e :: cs').takeWhile (fun x => !isPyWs x) =
              e :: cs'.takeWhile (fun x => !isPyWs x) := by
            simp [List.takeWhile_cons, he]
          have hdr : (e :: cs').dropWhile (fun x => !isPyWs x) =
              cs'.dropWhile (fun x => !isPyWs x) := by
            simp [List.dropWhile_cons, he]
          rw [htk, hdr, pyJoin_cons_head, pyJoin_cons_head, pyJoin_cons_head]
        | true =>
          set m := cs'.dropWhile isPyWs with hmdef
          have hdr : (e :: cs').dropWhile isPyWs = m := by
            simp [List.dropWhile_cons, he]
          have hm_ne : m ≠ [] := by
            intro hnil
            have hall : ∀ x ∈ cs', isPyWs x = true := by
              intro x hx
              have hnil' : cs'.dropWhile isPyWs = [] := hnil
              exact List.dropWhile_eq_nil_iff.1 hnil' x hx
            rcases cs' with _ | ⟨z, zs⟩
            · have := hlast' e rfl
              rw [this] at he
              cases he
            · obtain ⟨x, hx1, hx2⟩ := getLast?_ws_of_all_ws (z :: zs) (by simp) hall
              have := hlast' x (by rw [List.getLast?_cons_cons]; exact hx1)
              rw [this] at hx2
              cases hx2
          have hm_len : m.length ≤ n := by
            have h1 := dropWhile_length_le isPyWs cs'
            rw [← hmdef] at h1
            simp only [List.length_cons] at hlen
            omega
          have hm_head : ∀ x, m.head? = some x → isPyWs x = false :=
            fun x hx => head_dropWhile_not isPyWs cs' x hx
          have hm_last : ∀ x, m.getLast? = some x → isPyWs x = false := by
            intro x hx
            have hgl : m.getLast? = cs'.getLast? := getLast?_dropWhile isPyWs cs' hm_ne
            rw [hgl] at hx
            rcases cs' with _ | ⟨z, zs⟩
            · simp at hx
            · exact hlast' x (by rw [List.getLast?_cons_cons]; exact hx)
          have hih := ih m hm_len hm_head hm_last
          -- left side
          have hL : subWsRuns false (c :: e :: cs') =
              c :: ' ' :: subWsRuns false m := by
            rw [hsub]
            have h1 : subWsRuns false (e :: cs') = ' ' :: subWsRuns true cs' := by
              simp [subWsRuns, he]
            rw [h1, subWsRuns_true_eq cs']
          -- right side
          have htk : (e :: cs').takeWhile (fun x => !isPyWs x) = [] := by
            simp [List.takeWhile_cons, he]
          have hdr2 : (e :: cs').dropWhile (fun x => !isPyWs x) = e :: cs' := by
            simp [List.dropWhile_cons, he]
          have hrest : runsOf (fun x => !isPyWs x) (e :: cs') = pySplit m := by
            rw [runsOf_neg _ e cs' (by simp [he])]
            show pySplit cs' = pySplit m
            rw [pySplit_dropWs cs']
          rw [hL, hsplit, htk, hdr2, hrest, hih]
          match m, hm_ne, pySplit_mem_props m with
          | x :: m', _, hprops =>
            have hx_ne : isPyWs x = false := hm_head x rfl
            have hsplit_m : pySplit (x :: m') =
                (x :: m'.takeWhile (fun y => !isPyWs y)) ::
                  runsOf (fun y => !isPyWs y) (m'.dropWhile (fun y => !isPyWs y)) :=
              runsOf_pos _ m' x (by simp [hx_ne])
            rw [hsplit_m]
            rfl

/-- `collapseWs` computes `' '.join(text.split())`. -/
theorem collapseWs_eq_join (l : List Char) :
    collapseWs l = pyJoin [' '] (pySplit l) := by
  unfold collapseWs
  rw [subWsRuns_eq_join (stripWs l).length (stripWs l) le_rfl
    (head?_stripWs l) (getLast?_stripWs l), pySplit_stripWs]

theorem allP_take_drop (p : Char → Bool) (t : List Char)
    (ht : ∀ c ∈ t, p c = true) :
    ∀ y : List Char, (t ++ y).takeWhile p = t ++ y.takeWhile p ∧
      (t ++ y).dropWhile p = y.dropWhile p := by
  intro y
  induction t with
  | nil => exact ⟨rfl, rfl⟩
  | cons a t' ih =>
    have ha : p a = true := ht a (by simp)
    have ih' := ih (fun c hc => ht c (by simp [hc]))
    constructor
    · simp [List.takeWhile_cons, ha, ih'.1]
    · simp [List.dropWhile_cons, ha, ih'.2]

/-- Splitting the canonical join of nonempty whitespace-free tokens recovers
the tokens. -/
theorem pySplit_join_tokens :
    ∀ toks : List (List Char),
      (∀ t ∈ toks, t ≠ [] ∧ ∀ c ∈ t, isPyWs c = false) →
      pySplit (pyJoin [' '] toks) = toks := by
  intro toks
  induction toks with
  | nil => intro _; rfl
  | cons t rest ih =>
    intro htoks
    have ht := htoks t (by simp)
    have hall : ∀ c ∈ t, (fun x => !isPyWs x) c = true := by
      intro c hc
      simp [ht.2 c hc]
    cases rest with
    | nil =>
      show pySplit t = [t]
      match t, ht.1 with
      | c :: t', _ =>
        have hc : isPyWs c = false := ht.2 c (by simp)
        unfold pySplit
        rw [runsOf_pos _ t' c (by simp [hc])]
        have h1 : t'.takeWhile (fun x => !isPyWs x) = t' ++ [].takeWhile (fun x => !isPyWs x) ∧
            t'.dropWhile (fun x => !isPyWs x) = [].dropWhile (fun x => !isPyWs x) := by
          have := allP_take_drop (fun x => !isPyWs x) t'
            (fun c hc => by simp [ht.2 c (by simp [hc])]) []
          simpa using this
        rw [h1.1, h1.2]
        simp [runsOf]
    | cons t2 rest' =>
      rw [pyJoin_cons_cons]
      have hih := ih (fun x hx => htoks x (by simp [hx]))
      match t, ht.1 with
      | c :: t', _ =>
        have hc : isPyWs c = false := ht.2 c (by simp)
        have hall' : ∀ ch ∈ t', (fun x => !isPyWs x) ch = true := by
          intro ch hch
          simp [ht.2 ch (by simp [hch])]
        show pySplit (c :: (t' ++ [' '] ++ pyJoin [' '] (t2 :: rest'))) = _
        rw [List.append_assoc]
        have htd := allP_take_drop (fun x => !isPyWs x) t' hall'
          ([' '] ++ pyJoin [' '] (t2 :: rest'))
        unfold pySplit
        rw [runsOf_pos _ (t' ++ ([' '] ++ pyJoin [' '] (t2 :: rest'))) c (by simp [hc])]
        rw [htd.1, htd.2]
        have hsp : ([' '] ++ pyJoin [' '] (t2 :: rest')).takeWhile
            (fun x => !isPyWs x) = [] := by
          show ((' ' :: pyJoin [' '] (t2 :: rest')).takeWhile fun x => !isPyWs x) = []
          simp [List.takeWhile_cons, isPyWs]
        have hsd : ([' '] ++ pyJoin [' '] (t2 :: rest')).dropWhile
            (fun x => !isPyWs x) = ' ' :: pyJoin [' '] (t2 :: rest') := by
          show ((' ' :: pyJoin [' '] (t2 :: rest')).dropWhile fun x => !isPyWs x) =
            ' ' :: pyJoin [' '] (t2 :: rest')
          simp [List.dropWhile_cons, isPyWs]
        rw [hsp, hsd]
        have hskip : runsOf (fun x => !isPyWs x) (' ' :: pyJoin [' '] (t2 :: rest')) =
            pySplit (pyJoin [' '] (t2 :: rest')) := by
          rw [runsOf_neg _ (' ') (pyJoin [' '] (t2 :: rest')) (by simp [isPyWs])]
          rfl
        rw [hskip, hih]
        simp

/-- The whitespace collapser is idempotent. -/
theorem collapseWs_idem (l : List Char) :
    collapseWs (collapseWs l) = collapseWs l := by
  rw [collapseWs_eq_join l, collapseWs_eq_join (pyJoin [' '] (pySplit l)),
    pySplit_join_tokens (pySplit l) (pySplit_mem_props l)]

/-! ### NFKC is the identity on plain characters; claim C6 amended -/

theorem nfkcPlain_spec (c : Char) (h : nfkcPlain c = true) :
    ¬(0xFB8E ≤ c.toNat ∧ c.toNat ≤ 0xFB91) ∧
    ¬(0xFBFC ≤ c.toNat ∧ c.toNat ≤ 0xFBFF) ∧ isCompSecond c = false := by
  simp only [nfkcPlain, Bool.and_eq_true, Bool.not_eq_true', decide_eq_false_iff_not]
  at h
  exact ⟨h.1.1, h.1.2, h.2⟩

theorem nfkcDecomp_plain (c : Char) (h : nfkcPlain c = true) :
    nfkcDecomp c = [c] := by
  have hs := nfkcPlain_spec c h
  simp [nfkcDecomp, hs.1, hs.2.1]

theorem composePair_none_of_not_second (a b : Char)
    (h : isCompSecond b = false) : composePair a b = none := by
  simp only [isCompSecond, decide_eq_false_iff_not] at h
  push_neg at h
  simp [composePair, h.1, h.2.1, h.2.2]

theorem composeList_id (l : List Char)
    (h : ∀ c ∈ l, isCompSecond c = false) : composeList l = l := by
  induction l with
  | nil => rfl
  | cons a t ih =>
    cases t with
    | nil => rfl
    | cons b t' =>
      rw [composeList_cons_cons,
        composePair_none_of_not_second a b (h b (by simp))]
      exact congrArg (a :: ·) (ih (fun c hc => h c (by simp [hc])))

theorem flatten_map_singleton {α : Type} (l : List α) :
    (l.map (fun a => [a])).flatten = l := by
  induction l with
  | nil => rfl
  | cons a t ih => simp [ih]

theorem nfkc_id (l : List Char) (h : ∀ c ∈ l, nfkcPlain c = true) :
    nfkc l = l := by
  unfold nfkc
  have hmap : l.map nfkcDecomp = l.map (fun a => [a]) :=
    List.map_congr_left (fun c hc => nfkcDecomp_plain c (h c hc))
  rw [hmap, flatten_map_singleton]
  exact composeList_id l (fun c hc => (nfkcPlain_spec c (h c hc)).2.2)

theorem map_eq_self_of_id (l : List Char) (f : Char → Char)
    (h : ∀ c ∈ l, f c = c) : l.map f = l := by
  induction l with
  | nil => rfl
  | cons c cs ih => simp [h c (by simp), ih (fun x hx => h x (by simp [hx]))]

theorem nfkcPlain_after_fold (c : Char) (h : nfkcPlain c = true) :
    nfkcPlain ((fun x => if x = 'ی' then 'ي' else x)
      ((fun x => if x = 'ک' then 'ك' else x) c)) = true := by
  by_cases h1 : c = 'ک'
  · simp only [h1, if_pos rfl]
    decide
  · by_cases h2 : c = 'ی'
    · simp only [if_neg h1, h2, if_pos rfl]
      decide
    · simp only [if_neg h1, if_neg h2]
      exact h

/-- Claim C6, amended.  `normalize_urdu` is idempotent on every string whose
characters are plain for the NFKC model — no compatibility-decomposable
presentation forms and no combining madda/hamza marks (U+0653–U+0655).  This
covers ordinary Urdu text; in general idempotence fails because folding
Farsi Yeh to U+064A can create a new canonical-composition context for a
following combining hamza (see the counterexample). -/
theorem claim_C6_amended (text : String)
    (h : ∀ c ∈ text.data, nfkcPlain c = true) :
    normalize_urdu (normalize_urdu text) = normalize_urdu text := by
  have h1 : nfkc text.data = text.data := nfkc_id text.data h
  have hu_eq : normalize_urdu text = String.mk (collapseWs
      (((text.data).map (fun x => if x = 'ک' then 'ك' else x)).map
        (fun x => if x = 'ی' then 'ي' else x))) := by
    show String.mk (collapseWs (((nfkc text.data).map _).map _)) = _
    rw [h1]
  set t3 := ((text.data).map (fun x => if x = 'ک' then 'ك' else x)).map
    (fun x => if x = 'ی' then 'ي' else x) with ht3
  have ht3_plain : ∀ c ∈ t3, nfkcPlain c = true := by
    intro c hc
    rw [ht3] at hc
    rcases List.mem_map.1 hc with ⟨c1, hc1, hcc1⟩
    rcases List.mem_map.1 hc1 with ⟨c0, hc0, hcc0⟩
    rw [← hcc1, ← hcc0]
    exact nfkcPlain_after_fold c0 (h c0 hc0)
  have ht3_noK : 'ک' ∉ t3 :=
    not_mem_map_of_not_mem _ _ _
      (not_mem_map_replace _ 'ک' 'ك' (by decide))
      (fun c hfc => by
        by_cases hcy : c = 'ی'
        · rw [if_pos hcy] at hfc
          exact absurd hfc (by decide)
        · rwa [if_neg hcy] at hfc)
  have ht3_noY : 'ی' ∉ t3 := not_mem_map_replace _ 'ی' 'ي' (by decide)
  set u := collapseWs t3 with hu
  have hu_plain : ∀ c ∈ u, nfkcPlain c = true := by
    intro c hc
    rcases mem_collapseWs t3 c hc with hc' | hc'
    · exact ht3_plain c hc'
    · rw [hc']
      decide
  have hu_noK : 'ک' ∉ u := by
    intro hc
    rcases mem_collapseWs t3 _ hc with hc' | hc'
    · exact ht3_noK hc'
    · exact absurd hc' (by decide)
  have hu_noY : 'ی' ∉ u := by
    intro hc
    rcases mem_collapseWs t3 _ hc with hc' | hc'
    · exact ht3_noY hc'
    · exact absurd hc' (by decide)
  rw [hu_eq]
  show String.mk (collapseWs (((nfkc u).map (fun x => if x = 'ک' then 'ك' else x)).map
      (fun x => if x = 'ی' then 'ي' else x))) = _
  rw [nfkc_id u hu_plain,
    map_eq_self_of_id u (fun x => if x = 'ک' then 'ك' else x)
      (fun c hc => if_neg (fun hxc : c = 'ک' => hu_noK (hxc ▸ hc))),
    map_eq_self_of_id u (fun x => if x = 'ی' then 'ي' else x)
      (fun c hc => if_neg (fun hxc : c = 'ی' => hu_noY (hxc ▸ hc)))]
  show String.mk (collapseWs (collapseWs t3)) = _
  rw [collapseWs_idem]

/-- Claim C6, witness: the amended idempotence applied to an ordinary Urdu
phrase (with a doubled inner space to exercise the whitespace collapsing) —
all its characters are plain for the NFKC model. -/
theorem claim_C6_witness :
    (∀ c ∈ ("کیا  حال ہے" : String).data, nfkcPlain c = true) ∧
    normalize_urdu (normalize_urdu "کیا  حال ہے") = normalize_urdu "کیا  حال ہے" :=
  ⟨by decide, claim_C6_amended "کیا  حال ہے" (by decide)⟩

/-! ### The frequency dict as first-seen keys with occurrence counts -/

theorem foldl_filter_eq {α β : Type} (p : α → Prop) [DecidablePred p]
    (f : β → α → β) :
    ∀ (l : List α) (b : β),
      l.foldl (fun acc a => if p a then f acc a else acc) b =
        (l.filter (fun a => decide (p a))).foldl f b := by
  intro l
  induction l with
  | nil => intro b; rfl
  | cons a t ih =>
    intro b
    by_cases hp : p a
    · simp [List.filter_cons, hp, ih]
    · simp [List.filter_cons, hp, ih]

theorem mem_dedupFirst_aux :
    ∀ (l : List String) (acc : List String) (w : String),
      w ∈ l.foldl (fun acc w => if w ∈ acc then acc else acc ++ [w]) acc ↔
        w ∈ acc ∨ w ∈ l := by
  intro l
  induction l with
  | nil => intro acc w; simp
  | cons a t ih =>
    intro acc w
    by_cases ha : a ∈ acc
    · simp only [List.foldl_cons, if_pos ha]
      rw [ih]
      constructor
      · rintro (h | h)
        · exact Or.inl h
        · exact Or.inr (List.mem_cons_of_mem _ h)
      · rintro (h | h)
        · exact Or.inl h
        · rcases List.mem_cons.1 h with rfl | h
          · exact Or.inl ha
          · exact Or.inr h
    · simp only [List.foldl_cons, if_neg ha]
      rw [ih]
      simp only [List.mem_append, List.mem_singleton, List.mem_cons]
      tauto

theorem mem_dedupFirst (l : List String) (w : String) :
    w ∈ dedupFirst l ↔ w ∈ l := by
  unfold dedupFirst
  rw [mem_dedupFirst_aux]
  simp

theorem dedupFirst_append_one (pre : List String) (w : String) :
    dedupFirst (pre ++ [w]) =
      if w ∈ pre then dedupFirst pre else dedupFirst pre ++ [w] := by
  show (pre ++ [w]).foldl (fun acc v => if v ∈ acc then acc else acc ++ [v]) [] = _
  rw [List.foldl_append]
  simp only [List.foldl_cons, List.foldl_nil]
  show (if w ∈ dedupFirst pre then dedupFirst pre else dedupFirst pre ++ [w]) = _
  by_cases hw : w ∈ pre
  · rw [if_pos ((mem_dedupFirst pre w).2 hw), if_pos hw]
  · rw [if_neg (fun hc => hw ((mem_dedupFirst pre w).1 hc)), if_neg hw]

theorem countOcc_append_one (pre : List String) (w v : String) :
    countOcc (pre ++ [v]) w = countOcc pre w + (if w = v then 1 else 0) := by
  by_cases hwv : w = v
  · subst hwv
    simp [countOcc, List.filter_append]
  · simp [countOcc, List.filter_append, Ne.symm hwv, hwv]

theorem countOcc_eq_zero (pre : List String) (w : String) (h : w ∉ pre) :
    countOcc pre w = 0 := by
  unfold countOcc
  have : pre.filter (fun v => v = w) = [] := by
    induction pre with
    | nil => rfl
    | cons a t ih =>
      have ha : ¬ a = w := fun hc => h (by simp [hc])
      simp only [List.filter_cons]
      simp [ha, ih (fun hc => h (List.mem_cons_of_mem _ hc))]
  rw [this]
  rfl

theorem bump_step (pre : List String) (w : String) :
    bumpCount ((dedupFirst pre).map (fun v => (v, countOcc pre v))) w =
      (dedupFirst (pre ++ [w])).map (fun v => (v, countOcc (pre ++ [w]) v)) := by
  by_cases hw : w ∈ pre
  · have hany : ((dedupFirst pre).map (fun v => (v, countOcc pre v))).any
        (fun p => p.1 = w) = true := by
      rw [List.any_eq_true]
      exact ⟨(w, countOcc pre w),
        List.mem_map_of_mem _ ((mem_dedupFirst pre w).2 hw), by simp⟩
    unfold bumpCount
    rw [if_pos hany, dedupFirst_append_one, if_pos hw, List.map_map]
    apply List.map_congr_left
    intro v hv
    simp only [Function.comp]
    by_cases hvw : v = w
    · subst hvw
      simp [countOcc_append_one]
    · simp [hvw, countOcc_append_one]
  · have hany : ¬ ((dedupFirst pre).map (fun v => (v, countOcc pre v))).any
        (fun p => p.1 = w) = true := by
      intro hc
      rw [List.any_eq_true] at hc
      obtain ⟨p, hp, hpw⟩ := hc
      rcases List.mem_map.1 hp with ⟨v, hv, hvp⟩
      have hv1 : v ∈ pre := (mem_dedupFirst pre v).1 hv
      have : p.1 = w := by simpa using hpw
      rw [← hvp] at this
      simp at this
      rw [this] at hv1
      exact hw hv1
    unfold bumpCount
    rw [if_neg hany, dedupFirst_append_one, if_neg hw, List.map_append]
    congr 1
    · apply List.map_congr_left
      intro v hv
      have hv1 : v ∈ pre := (mem_dedupFirst pre v).1 hv
      have hvw : ¬ v = w := fun hc => hw (hc ▸ hv1)
      simp [countOcc_append_one, hvw]
    · simp [countOcc_append_one, countOcc_eq_zero pre w hw]

theorem bump_fold :
    ∀ (rest pre : List String),
      rest.foldl bumpCount ((dedupFirst pre).map (fun v => (v, countOcc pre v))) =
        (dedupFirst (pre ++ rest)).map (fun v => (v, countOcc (pre ++ rest) v)) := by
  intro rest
  induction rest with
  | nil => intro pre; simp
  | cons w rest' ih =>
    intro pre
    rw [List.foldl_cons, bump_step pre w, ih (pre ++ [w])]
    simp [List.append_assoc]

/-- The frequency dict holds the filtered tokens' first occurrences in
encounter order, each with its total occurrence count. -/
theorem word_freq_eq (words sw : List String) :
    word_freq words sw =
      (dedupFirst (words.filter (fun w => decide (w ∉ sw ∧ 2 < w.length)))).map
        (fun v => (v, countOcc
          (words.filter (fun w => decide (w ∉ sw ∧ 2 < w.length))) v)) := by
  unfold word_freq
  rw [foldl_filter_eq (fun w => w ∉ sw ∧ 2 < w.length) bumpCount words []]
  have h := bump_fold (words.filter (fun w => decide (w ∉ sw ∧ 2 < w.length))) []
  simpa using h

/-! ### The sort is descending and stable -/

theorem sortByCountDesc_pairwise (l : List (String × Nat)) :
    (sortByCountDesc l).Pairwise (fun a b : String × Nat => b.2 ≤ a.2) := by
  haveI : IsTotal (String × Nat) (fun a b : String × Nat => b.2 ≤ a.2) :=
    ⟨fun a b => le_total b.2 a.2⟩
  haveI : IsTrans (String × Nat) (fun a b : String × Nat => b.2 ≤ a.2) :=
    ⟨fun _ _ _ h1 h2 => le_trans h2 h1⟩
  exact List.sorted_insertionSort _ l

theorem filter_orderedInsert (n : Nat) (a : String × Nat) :
    ∀ l : List (String × Nat),
      (List.orderedInsert (fun x y : String × Nat => y.2 ≤ x.2) a l).filter
          (fun p => decide (p.2 = n)) =
        ((a :: l).filter (fun p => decide (p.2 = n))) := by
  intro l
  induction l with
  | nil => rfl
  | cons b l' ih =>
    by_cases hab : b.2 ≤ a.2
    · have hrw : List.orderedInsert (fun x y : String × Nat => y.2 ≤ x.2) a (b :: l') =
          a :: b :: l' := by
        simp [List.orderedInsert, hab]
      rw [hrw]
    · have hrw : List.orderedInsert (fun x y : String × Nat => y.2 ≤ x.2) a (b :: l') =
          b :: List.orderedInsert (fun x y : String × Nat => y.2 ≤ x.2) a l' := by
        simp [List.orderedInsert, hab]
      rw [hrw]
      by_cases hbn : b.2 = n
      · have han : ¬ a.2 = n := by omega
        simp [List.filter_cons, hbn, han, ih]
      · by_cases han : a.2 = n
        · simp [List.filter_cons, hbn, han, ih]
        · simp [List.filter_cons, hbn, han, ih]

theorem filter_insertionSortDesc (n : Nat) :
    ∀ l : List (String × Nat),
      (List.insertionSort (fun x y : String × Nat => y.2 ≤ x.2) l).filter
          (fun p => decide (p.2 = n)) =
        l.filter (fun p => decide (p.2 = n)) := by
  intro l
  induction l with
  | nil => rfl
  | cons a l' ih =>
    show (List.orderedInsert _ a (List.insertionSort _ l')).filter _ = _
    rw [filter_orderedInsert n a (List.insertionSort _ l')]
    by_cases han : a.2 = n <;> simp [List.filter_cons, han, ih]

/-- Stability of the sort: for each count value, the elements with that count
appear in their original order. -/
theorem filter_sortByCountDesc (l : List (String × Nat)) (n : Nat) :
    (sortByCountDesc l).filter (fun p => decide (p.2 = n)) =
      l.filter (fun p => decide (p.2 = n)) :=
  filter_insertionSortDesc n l

theorem filter_map_comm {α β : Type} (f : α → β) (p : β → Bool) (l : List α) :
    (l.map f).filter p = (l.filter (fun a => p (f a))).map f := by
  induction l with
  | nil => rfl
  | cons a t ih =>
    by_cases hp : p (f a) = true
    · simp [List.filter_cons, hp, ih]
    · simp [List.filter_cons, hp, ih]

/-! ### Claim C7: the key-phrase contract -/

/-- Claim C7.  For every text and supported language, `extract_key_phrases`
succeeds and returns at most 10 tokens; none is a stop word or has length
≤ 2; the tokens come in descending order of their frequency in the filtered
token stream; and for every frequency value, the returned tokens with that
frequency are an initial segment of the first-encountered-order tokens with
that frequency (ties keep first-seen order; the top-10 cut only truncates
from the end). -/
theorem claim_C7 (text language : String)
    (h : language = "ur" ∨ language = "en") :
    ∃ l, extract_key_phrases text language = some l ∧
      l.length ≤ 10 ∧
      (∀ w ∈ l, w ∉ (stop_words language).getD [] ∧ 2 < w.length) ∧
      l.Pairwise (fun a b => countOcc (kp_filtered text language) b ≤
        countOcc (kp_filtered text language) a) ∧
      (∀ n, ∃ more,
        (dedupFirst (kp_filtered text language)).filter
            (fun w => decide (countOcc (kp_filtered text language) w = n)) =
          l.filter (fun w => decide (countOcc (kp_filtered text language) w = n))
            ++ more) := by
  obtain ⟨sw, hsw, hswd⟩ : ∃ sw, stop_words language = some sw ∧
      sw = (stop_words language).getD [] := by
    rcases h with h | h <;> subst h <;> exact ⟨_, rfl, rfl⟩
  have hF : (kp_words text language).filter
      (fun w => decide (w ∉ sw ∧ 2 < w.length)) = kp_filtered text language := by
    rw [hswd]
    rfl
  have hwf : word_freq (kp_words text language) sw =
      (dedupFirst (kp_filtered text language)).map
        (fun v => (v, countOcc (kp_filtered text language) v)) := by
    rw [word_freq_eq, hF]
  have hsnd : ∀ p ∈ word_freq (kp_words text language) sw,
      p.2 = countOcc (kp_filtered text language) p.1 ∧
      p.1 ∈ kp_filtered text language := by
    intro p hp
    rw [hwf] at hp
    rcases List.mem_map.1 hp with ⟨v, hv, hvp⟩
    rw [← hvp]
    exact ⟨rfl, (mem_dedupFirst _ v).1 hv⟩
  have hmem_wf : ∀ p ∈ (sortByCountDesc (word_freq (kp_words text language) sw)).take 10,
      p ∈ word_freq (kp_words text language) sw := by
    intro p hp
    exact (List.mem_insertionSort (fun a b : String × Nat => b.2 ≤ a.2)).1
      (List.mem_of_mem_take hp)
  refine ⟨((sortByCountDesc (word_freq (kp_words text language) sw)).take 10).map
    Prod.fst, ?_, ?_, ?_, ?_, ?_⟩
  · simp [extract_key_phrases, hsw]
  · rw [List.length_map]
    exact List.length_take_le 10 _
  · intro w hw
    rcases List.mem_map.1 hw with ⟨p, hp, hpw⟩
    have hp2 := (hsnd p (hmem_wf p hp)).2
    have := List.mem_filter.1 hp2
    have hprop := of_decide_eq_true this.2
    rw [← hpw]
    exact hprop
  · rw [List.pairwise_map]
    refine List.Pairwise.imp_of_mem ?_
      ((sortByCountDesc_pairwise (word_freq (kp_words text language) sw)).sublist
        (List.take_sublist 10 _))
    intro a b ha hb hr
    have ha' := (hsnd a (hmem_wf a ha)).1
    have hb' := (hsnd b (hmem_wf b hb)).1
    rw [← ha', ← hb']
    exact hr
  · intro n
    refine ⟨(((sortByCountDesc (word_freq (kp_words text language) sw)).drop 10).filter
      (fun p => decide (p.2 = n))).map Prod.fst, ?_⟩
    have h1 : (dedupFirst (kp_filtered text language)).filter
        (fun w => decide (countOcc (kp_filtered text language) w = n)) =
        ((word_freq (kp_words text language) sw).filter
          (fun p => decide (p.2 = n))).map Prod.fst := by
      rw [hwf, filter_map_comm, List.map_map]
      have hid : (Prod.fst ∘ fun v => (v, countOcc (kp_filtered text language) v)) =
          id := rfl
      rw [hid, List.map_id]
    have h2 : (word_freq (kp_words text language) sw).filter
        (fun p => decide (p.2 = n)) =
        (sortByCountDesc (word_freq (kp_words text language) sw)).filter
          (fun p => decide (p.2 = n)) :=
      (filter_sortByCountDesc _ n).symm
    have h3 : (sortByCountDesc (word_freq (kp_words text language) sw)).filter
        (fun p => decide (p.2 = n)) =
        ((sortByCountDesc (word_freq (kp_words text language) sw)).take 10).filter
          (fun p => decide (p.2 = n)) ++
        ((sortByCountDesc (word_freq (kp_words text language) sw)).drop 10).filter
          (fun p => decide (p.2 = n)) := by
      rw [← List.filter_append, List.take_append_drop]
    have h4 : (((sortByCountDesc (word_freq (kp_words text language) sw)).take 10).map
        Prod.fst).filter (fun w => decide (countOcc (kp_filtered text language) w = n)) =
        (((sortByCountDesc (word_freq (kp_words text language) sw)).take 10).filter
          (fun p => decide (p.2 = n))).map Prod.fst := by
      rw [filter_map_comm]
      congr 1
      apply List.filter_congr
      intro p hp
      rw [(hsnd p (hmem_wf p hp)).1]
    rw [h1, h2, h3, List.map_append, h4]

/-- Claim C7, witness: the key-phrase contract applied to a concrete English
sentence. -/
theorem claim_C7_witness :
    (("en" : String) = "ur" ∨ ("en" : String) = "en") ∧
    ∃ l, extract_key_phrases "the cat sat on the mat cat cat" "en" = some l ∧
      l.length ≤ 10 ∧
      (∀ w ∈ l, w ∉ (stop_words "en").getD [] ∧ 2 < w.length) ∧
      l.Pairwise (fun a b =>
        countOcc (kp_filtered "the cat sat on the mat cat cat" "en") b ≤
        countOcc (kp_filtered "the cat sat on the mat cat cat" "en") a) ∧
      (∀ n, ∃ more,
        (dedupFirst (kp_filtered "the cat sat on the mat cat cat" "en")).filter
            (fun w => decide
              (countOcc (kp_filtered "the cat sat on the mat cat cat" "en") w = n)) =
          l.filter (fun w => decide
              (countOcc (kp_filtered "the cat sat on the mat cat cat" "en") w = n))
            ++ more) :=
  ⟨Or.inr rfl, claim_C7 "the cat sat on the mat cat cat" "en" (Or.inr rfl)⟩

/-! ### Claim C1: the segmentation example -/

/-- Claim C1, counterexample.  On `"Hello world. This is fine. Ok."` with
language `en`, the segmenter does not return
`["Hello world.", "This is fine."]`: the fragment `"Hello world"` has only
two whitespace tokens, so the three-word filter discards it as well. -/
theorem claim_C1_counterexample :
    _regex_sentence_split "Hello world. This is fine. Ok." "en" ≠
      ["Hello world.", "This is fine."] := by decide

/-- Claim C1, amended.  On `"Hello world. This is fine. Ok."` with language
`en`, segmentation returns exactly `["This is fine"]`: both `"Hello world"`
(2 tokens) and `"Ok"` (1 token) fall to the short-fragment filter, and the
single retained sentence, being the last one, carries no terminator. -/
theorem claim_C1_amended :
    _regex_sentence_split "Hello world. This is fine. Ok." "en" =
      ["This is fine"] := by decide

/-! ### Claim C4: summarizer language routing -/

/-- Claim C4, counterexample.  A call with language `en` made while an mT5
summarizer is already cached returns the cached mT5 handle — the
English-optimized adapter is not consulted, so the stated routing does not
hold for every call. -/
theorem claim_C4_counterexample :
    load_summarizer loadAlways (some mt5Summarizer) "en" =
      .ok (mt5Summarizer, some mt5Summarizer) ∧
    mt5Summarizer.model ≠ "facebook/bart-large-cnn" := by
  exact ⟨rfl, by decide⟩

/-- Claim C4, amended.  The language routing — `en` to the BART adapter,
any other language to the mT5 adapter, with fallback to BART when the
preferred load fails — applies only when no summarizer is cached; whenever
one is cached (also one loaded for the other language), it is returned
unchanged. -/
theorem claim_C4_amended (loadModel : String → Except String Summarizer)
    (cached : Option Summarizer) (language : String) :
    (∀ s, cached = some s →
      load_summarizer loadModel cached language = .ok (s, some s)) ∧
    (cached = none → language = "en" →
      load_summarizer loadModel cached language =
        (match loadModel "facebook/bart-large-cnn" with
          | .ok s => .ok (s, some s)
          | .error e => .error e)) ∧
    (cached = none → language ≠ "en" →
      load_summarizer loadModel cached language =
        (match loadModel "google/mt5-small" with
          | .ok s => .ok (s, some s)
          | .error _ =>
            match loadModel "facebook/bart-large-cnn" with
            | .ok s => .ok (s, some s)
            | .error e => .error e)) := by
  refine ⟨?_, ?_, ?_⟩
  · intro s hs
    subst hs
    rfl
  · intro hc hl
    subst hc
    subst hl
    cases h : loadModel "facebook/bart-large-cnn" with
    | ok s => simp [load_summarizer, h]
    | error e => simp [load_summarizer, h]
  · intro hc hl
    subst hc
    cases h1 : loadModel "google/mt5-small" with
    | ok s => simp [load_summarizer, hl, h1]
    | error e1 =>
      cases h2 : loadModel "facebook/bart-large-cnn" with
      | ok s => simp [load_summarizer, hl, h1, h2]
      | error e2 => simp [load_summarizer, hl, h1, h2]

/-! ### Claim C8: short-text short-circuit -/

/-- Claim C8, counterexample.  The code has two distinct fixed sentinels, not
one: empty input returns the empty-input sentinel, while a nonempty input
under 20 tokens returns the short-text sentinel, so "the fixed short-text
sentinel string" is not returned for every sub-20-token input. -/
theorem claim_C8_counterexample :
    summarize_text failingLoader "" "en" none none =
      .ok "⚠️ Empty input. Skipped." ∧
    summarize_text failingLoader "one two three" "en" none none =
      .ok "ℹ️ Text too short to summarize. Consider keeping as-is." ∧
    ("⚠️ Empty input. Skipped." : String) ≠
      "ℹ️ Text too short to summarize. Consider keeping as-is." := by
  refine ⟨rfl, rfl, by decide⟩

/-- Claim C4, witness: the amended routing applied at concrete inputs — a
cached mT5 handle is returned unchanged on an `en` call, and an uncached
`en` call loads the BART adapter. -/
theorem claim_C4_witness :
    load_summarizer loadAlways (some mt5Summarizer) "en" =
      .ok (mt5Summarizer, some mt5Summarizer) ∧
    load_summarizer loadAlways none "en" =
      .ok (bartSummarizer, some bartSummarizer) := by
  constructor
  · exact (claim_C4_amended loadAlways (some mt5Summarizer) "en").1 mt5Summarizer rfl
  · have h := (claim_C4_amended loadAlways none "en").2.1 rfl rfl
    rw [h]
    rfl

/-- Claim C8, amended.  Text below 20 whitespace tokens is never summarized
and never raises, regardless of the summarization capability — but the code
has two sentinels: empty or whitespace-only input returns the empty-input
sentinel, and nonempty input below 20 tokens returns the short-text
sentinel. -/
theorem claim_C8_amended (load : String → Except String Summarizer)
    (text language : String) (max_length min_length : Option Nat)
    (h : (pySplit text.data).length < 20) :
    (stripWs text.data = [] →
      summarize_text load text language max_length min_length =
        .ok "⚠️ Empty input. Skipped.") ∧
    (stripWs text.data ≠ [] →
      summarize_text load text language max_length min_length =
        .ok "ℹ️ Text too short to summarize. Consider keeping as-is.") := by
  constructor
  · intro he
    simp [summarize_text, he]
  · intro he
    simp [summarize_text, he, h]

/-- Claim C8, witness: the amended theorem applied to the 3-token input
`"one two three"` with a loader that always fails — the short-text sentinel
comes back with no error. -/
theorem claim_C8_witness :
    ((pySplit ("one two three" : String).data).length < 20) ∧
    (stripWs ("one two three" : String).data ≠ [] →
      summarize_text failingLoader "one two three" "en" none none =
        .ok "ℹ️ Text too short to summarize. Consider keeping as-is.") := by
  exact ⟨by decide,
    (claim_C8_amended failingLoader "one two three" "en" none none (by decide)).2⟩

/-! ### Claim C3: summarization failure handling -/

/-- Claim C3, counterexample.  With at least 20 words and a summarization
capability that fails to initialize (both the preferred model and the BART
fallback), `summarize_text` propagates the load failure as an error to the
caller instead of degrading to a clause-based summary. -/
theorem claim_C3_counterexample :
    summarize_text failingLoader "a a a a a a a a a a a a a a a a a a a a" "en"
      none none = .error "load failed" := rfl

/-- Claim C3, amended.  For text of at least 20 whitespace tokens: whenever
the capability loads, the call returns `ok` — a per-chunk failure never
propagates, the failing chunk contributing the marked fallback (`"📝 "` plus
the first two clauses of that chunk, joined and terminated with the
language's full stop); but a failure to initialize the capability is
propagated as an error to the caller, not degraded.  (The unmarked
whole-text fallback in the source guards only failures outside the
per-chunk loop, which cannot arise in this model.) -/
theorem claim_C3_amended (load : String → Except String Summarizer)
    (text language : String) (max_length min_length : Option Nat)
    (h0 : stripWs text.data ≠ []) (h20 : ¬ (pySplit text.data).length < 20) :
    (∀ e, load language = .error e →
      summarize_text load text language max_length min_length = .error e) ∧
    (∀ s, load language = .ok s →
      summarize_text load text language max_length min_length =
        .ok (pyJoinStr "\n\n" ((chunk_text text language none).map (fun chunk =>
          match s.run (if s.isMt5 then "summarize: " ++ chunk else chunk)
              (max_length.getD (if language = "ur" then 8 else 150))
              (min_length.getD (if language = "ur" then 3 else 50)) with
          | .ok t => t
          | .error _ => "📝 " ++ fallback_summary chunk language)))) := by
  constructor
  · intro e he
    simp [summarize_text, h0, h20, he]
  · intro s hs
    simp [summarize_text, h0, h20, hs, summarize_chunks_eq_map]

/-- Claim C3, witness: the amended theorem applied to a 20-token input and
the always-failing loader — the initialization failure comes back as an
error. -/
theorem claim_C3_witness :
    (stripWs ("a a a a a a a a a a a a a a a a a a a a" : String).data ≠ []) ∧
    (∀ e, failingLoader "en" = .error e →
      summarize_text failingLoader "a a a a a a a a a a a a a a a a a a a a"
        "en" none none = .error e) := by
  exact ⟨by decide,
    (claim_C3_amended failingLoader "a a a a a a a a a a a a a a a a a a a a"
      "en" none none (by decide) (by decide)).1⟩

/-! ### Claim C2: the shape of a failing pipeline record -/

/-- Claim C2, counterexample.  A run that fails at the sentence-file write —
after a successful transcription stage — returns an error record that still
contains the transcription, language and word-count fields, not a record of
exactly the error status and message. -/
theorem claim_C2_counterexample :
    (process_pipeline sentenceWriteFailEnv "clip" "en").status = some "error" ∧
    (process_pipeline sentenceWriteFailEnv "clip" "en").transcription =
      some "x y z" ∧
    (process_pipeline sentenceWriteFailEnv "clip" "en").word_count = some 3 := by
  refine ⟨rfl, rfl, rfl⟩

/-- Claim C2, amended.  Every pipeline run ends with `status = success`, or
with `status = error` together with an error message; a failing run's record
keeps every field recorded by the stages completed before the failure — in
particular, whenever transcription succeeds, the record contains the
transcription, language and word-count fields even if a later stage fails —
and only a failure of the very first stage yields a record consisting of
exactly the error status and message. -/
theorem claim_C2_amended (env : PipelineEnv) (file_name language : String) :
    ((process_pipeline env file_name language).status = some "success" ∨
      ((process_pipeline env file_name language).status = some "error" ∧
        (process_pipeline env file_name language).error ≠ none)) ∧
    (∀ t, env.transcribe ("audio/" ++ file_name ++ ".mp3") language = .ok t →
      (process_pipeline env file_name language).transcription = some t ∧
      (process_pipeline env file_name language).language = some language ∧
      (process_pipeline env file_name language).word_count =
        some (pySplit t.data).length) ∧
    (∀ e, env.transcribe ("audio/" ++ file_name ++ ".mp3") language = .error e →
      process_pipeline env file_name language =
        { status := some "error", error := some ("Pipeline failed: " ++ e) }) := by
  refine ⟨?_, ?_, ?_⟩
  · simp only [process_pipeline, process_sentences]
    repeat' split
    all_goals simp
  · intro t ht
    simp only [process_pipeline, process_sentences, ht]
    repeat' split
    all_goals simp
  · intro e he
    simp only [process_pipeline, process_sentences, he]

/-- Claim C2, witness: the amended theorem applied to the environment whose
sentence-file write fails — the fields of the completed transcription stage
are present in the error record. -/
theorem claim_C2_witness :
    (process_pipeline sentenceWriteFailEnv "clip" "en").transcription =
      some "x y z" ∧
    (process_pipeline sentenceWriteFailEnv "clip" "en").language = some "en" ∧
    (process_pipeline sentenceWriteFailEnv "clip" "en").word_count =
      some (pySplit ("x y z" : String).data).length :=
  (claim_C2_amended sentenceWriteFailEnv "clip" "en").2.1 "x y z" rfl

/-! ### Claim C6 (counterexample): Urdu normalization is not idempotent -/

/-- Claim C6, counterexample.  `normalize_urdu` is not idempotent: on the
two-character input Farsi Yeh (U+06CC) followed by combining hamza above
(U+0654), the first pass folds the Yeh to U+064A, and on the second pass
NFKC canonically composes U+064A U+0654 into the single letter U+0626. -/
theorem claim_C6_counterexample :
    normalize_urdu (normalize_urdu (String.mk ['ی', 'ٔ'])) ≠
      normalize_urdu (String.mk ['ی', 'ٔ']) := by decide

end AudioProcessor
